import Mathlib

set_option maxHeartbeats 1000000

/-!
Verification development for the `pybaker` incremental build engine
(`src/pybaker/pybaker.py`).

Shallow embedding conventions:
- Python strings (paths, flags, lines of text) are `List Char`.
- Modification times (`os.stat(p).st_mtime`, floats in Python) are `Nat`:
  only their ordering and the "set to now" update are ever used.
- The filesystem is a map from path to optional mtime (`none` = the file does
  not exist) together with a map from path to the list of text lines that
  `open(p).readlines()` would yield.
- Python calls that can raise (`os.stat` / `open` on a missing path, a `dict`
  subscript on a missing key) are embedded in `Except PyErr`.
- External toolchain drivers (`Compiler.compile_file`, `Linker.link`) and
  `os.path.abspath` are environment parameters: an oracle telling whether a
  given invocation fails, plus the contractual side effect of a successful
  compile (the object file appears at the derived path).
- `Builder._get_deps` recurses on the (finite, on a real disk) include graph;
  the embedding adds a fuel parameter, exhaustion being the artificial
  `PyErr.fuelOut`.  Every theorem about it either supplies enough fuel or
  assumes the call returned without error.
- The thread pool of `Builder._build` dispatches jobs in chunks; its database
  and flag bookkeeping is serialized (one future resolved at a time in
  submission order in `_build`, and the claims under study never depend on the
  intra-chunk interleaving), so the embedding runs `_build_file` sequentially
  in submission order.
-/

namespace Pybaker

/-- Errors raised by the embedded Python operations. `fileNotFound` is
`FileNotFoundError` from `os.stat`/`open`; `keyError` is `KeyError` from a
`dict` subscript; `fuelOut` is an artifact of the fuel-bounded embedding of
the recursive dependency scan. -/
inductive PyErr where
  | fileNotFound
  | keyError
  | fuelOut
deriving DecidableEq

/-! ### Python string primitives used by the engine -/

/-- `s.rfind(c)` for a one-character pattern: index of the last occurrence,
`-1` when absent. -/
def lastIdx : List Char → Char → Int
  | [], _ => -1
  | a :: as, c =>
      let r := lastIdx as c
      if r ≥ 0 then r + 1 else if a = c then 0 else -1

/-- Normalisation of a Python slice endpoint for a sequence of length `n`. -/
def pyNorm (n : Nat) (i : Int) : Nat :=
  if i < 0 then (Int.ofNat n + i).toNat else min i.toNat n

/-- Python `s[a:b]`. -/
def pySlice (s : List Char) (a b : Int) : List Char :=
  (s.take (pyNorm s.length b)).drop (pyNorm s.length a)

/-- Python `s.replace(a, b)` for one-character `a` and `b`. -/
def pyReplaceChar (s : List Char) (a b : Char) : List Char :=
  s.map (fun c => if c = a then b else c)

/-- Python `" ".join(l)`. -/
def joinSpace : List (List Char) → List Char
  | [] => []
  | [x] => x
  | x :: y :: xs => x ++ ' ' :: joinSpace (y :: xs)

/-! ### Filesystem model -/

/-- The filesystem: per-path optional modification time (existence included)
and per-path text lines. -/
structure FS where
  mtime : List Char → Option Nat
  lines : List Char → List (List Char)

/-- `os.utime(p, (t, t))` / creation of a file at `p` with mtime `t`. -/
def FS.setMtime (fs : FS) (p : List Char) (t : Nat) : FS :=
  { fs with mtime := fun q => if q = p then some t else fs.mtime q }

/-! ### Languages, source groups, scheduling units

A `Language` groups the fields the engine reads from the Python `Language`
object and from its attached `Compiler`/`DependencyScanner`: the recognised
extensions, the scanner's pure `scan(file, line)` function, and the compiler's
`object_extension`. -/

structure Language where
  file_extentions : List (List Char)
  scan : List Char → List Char → Option (List Char)
  object_extension : List Char

/-- `SourcePath`: a directory, a list of filenames, one shared flag list. -/
structure SourcePath where
  path : List Char
  files : List (List Char)
  flags : List (List Char)

/-- `_SourceFile`: the scheduling unit produced by the staleness checker. -/
structure SourceFile where
  path : List Char
  flags : List (List Char)
  lang : Language

/-! ### The build database -/

/-- `_SourceData`: per-source persisted record. -/
structure SourceData where
  dependencies : List (List Char)
  last_write_time : Nat
  flags : List Char
deriving DecidableEq

/-- First-match association-list lookup: a Python `dict` read. -/
def lookupA {β : Type} : List (List Char × β) → List Char → Option β
  | [], _ => none
  | (k, v) :: rest, key => if k = key then some v else lookupA rest key

/-- Python `d[k] = v`: replace in place if the key exists, else append. -/
def updateA {β : Type} : List (List Char × β) → List Char → β → List (List Char × β)
  | [], key, v => [(key, v)]
  | (k, w) :: rest, key, v =>
      if k = key then (k, v) :: rest else (k, w) :: updateA rest key v

/-- `_DatabaseFileContents`: the persisted state. `sources` and `objects` are
Python dicts embedded as insertion-ordered association lists; each object set
is a list without the duplicates `set.add` would drop. -/
structure DatabaseFileContents where
  link_error : Bool
  sources : List (List Char × SourceData)
  objects : List (List Char × List (List Char))
deriving DecidableEq

/-- The empty default state built by `_DatabaseFileContents.__init__`. -/
def DatabaseFileContents.empty : DatabaseFileContents :=
  { link_error := false, sources := [], objects := [] }

/-- `_BuildDatabase`: in-memory data plus the persisted pickle file, the
latter embedded as `Option DatabaseFileContents` (`none` = no file on disk). -/
structure BuildDatabase where
  store : Option DatabaseFileContents
  data : DatabaseFileContents
deriving DecidableEq

/-- `_BuildDatabase.load`: if the file does not exist, keep the in-memory
state; otherwise unpickle it. -/
def BuildDatabase.load (db : BuildDatabase) : BuildDatabase :=
  match db.store with
  | none => db
  | some d => { db with data := d }

/-- `_BuildDatabase.save`: pickle the full in-memory state, overwriting. -/
def BuildDatabase.save (db : BuildDatabase) : BuildDatabase :=
  { db with store := some db.data }

/-- `_BuildDatabase.query_source`. -/
def query_source (d : DatabaseFileContents) (filename : List Char) : Option SourceData :=
  lookupA d.sources filename

/-- `_BuildDatabase.update_source`. -/
def update_source (d : DatabaseFileContents) (filename : List Char) (data : SourceData) :
    DatabaseFileContents :=
  { d with sources := updateA d.sources filename data }

/-- `_BuildDatabase.add_object`: create the build type's entry if missing,
then add the filename to its set. -/
def add_object (d : DatabaseFileContents) (filename build_type : List Char) :
    DatabaseFileContents :=
  let objects := match lookupA d.objects build_type with
    | none => d.objects ++ [(build_type, [])]
    | some _ => d.objects
  let cur := (lookupA objects build_type).getD []
  let cur' := if filename ∈ cur then cur else cur ++ [filename]
  { d with objects := updateA objects build_type cur' }

/-- `_BuildDatabase.get_objects`: a raw `dict` subscript, raising `KeyError`
when the build type has no entry. -/
def get_objects (d : DatabaseFileContents) (build_type : List Char) :
    Except PyErr (List (List Char)) :=
  match lookupA d.objects build_type with
  | none => .error .keyError
  | some s => .ok s

/-! ### The environment: external collaborators -/

/-- External collaborators of the engine: `os.path.abspath`, the compiler
driver's failure oracle (arguments mirror `compile_file(output_dir,
output_name, source_file, build_type, flags, prec)`, minus the
progress-display fraction), the linker driver's failure oracle (arguments
mirror `link(output_dir, output_name, build_type, objects, flags)`), and the
fuel bound for the dependency scan. -/
structure Env where
  abspath : List Char → List Char
  compileFails : List Char → List Char → List Char → List Char → List (List Char) → Bool
  linkFails : List Char → List Char → List Char → List (List Char) → List (List Char) → Bool
  fuel : Nat

/-! ### The builder -/

/-- The `Builder` state: configuration fields fixed by `__init__`, the
registered languages and source groups, the database, and the
`_should_link` / `_error` flags.  `linkerNone` records whether `_linker` is
`None` (its behaviour when present lives in `Env.linkFails`). -/
structure Builder where
  project_name : List Char
  build_type : List Char
  languages : List Language
  source_paths : List SourcePath
  linkerNone : Bool
  output_path : List Char
  object_path : List Char
  database : BuildDatabase
  should_link : Bool
  error : Bool
  cores : Int

/-- `Builder._get_language`: first registered language whose extension set
contains `ext`. -/
def get_language (langs : List Language) (ext : List Char) : Option Language :=
  langs.find? (fun l => decide (ext ∈ l.file_extentions))

/-- `file[file.rfind(SLASH) + 1 : file.rfind(".")]`. -/
def source_filename_of (file : List Char) : List Char :=
  pySlice file (lastIdx file '/' + 1) (lastIdx file '.')

/-- `file[:file.rfind(SLASH)]`. -/
def source_filepath_of (file : List Char) : List Char :=
  pySlice file 0 (lastIdx file '/')

/-- `file[file.rfind("."):]`. -/
def ext_of (file : List Char) : List Char :=
  pySlice file (lastIdx file '.') (Int.ofNat file.length)

/-- `source_filepath.replace(SLASH, "_").replace(":", "_") + "_"`. -/
def obj_name_head (file : List Char) : List Char :=
  pyReplaceChar (pyReplaceChar (source_filepath_of file) '/' '_') ':' '_' ++ ['_']

/-- The derived object filename for a source file under a compiler's object
extension, exactly as computed in `_check_file` and `_build_file`. -/
def obj_filename_of (file objExt : List Char) : List Char :=
  obj_name_head file ++ source_filename_of file ++ objExt

/-- Absolute path of the object file inside the builder's object cache. -/
def obj_full_path (objectPath file objExt : List Char) : List Char :=
  objectPath ++ '/' :: obj_filename_of file objExt

/-- The dep-loop of `_check_file` rule 5: stat each recorded dependency in
order; the first one strictly newer than the recorded source mtime bumps the
source file's mtime to `now` and stops the loop.  Returns whether the file
was found stale, plus the (possibly bumped) filesystem. -/
def depScan (fs : FS) (file : List Char) (now lwt : Nat) :
    List (List Char) → Except PyErr (Bool × FS)
  | [] => .ok (false, fs)
  | d :: ds =>
      match fs.mtime d with
      | none => .error .fileNotFound
      | some t =>
          if lwt < t then .ok (true, fs.setMtime file now)
          else depScan fs file now lwt ds

/-- `Builder._check_file`. `now` is `datetime.datetime.now().timestamp()`.
Returns the scheduling decision, the builder (whose `_error` flag the
unsupported-language branch may set) and the filesystem (which the rule-5
side effect may change). -/
def check_file (env : Env) (now : Nat) (b : Builder) (fs : FS)
    (file : List Char) (flags : List (List Char)) :
    Except PyErr (Option SourceFile × Builder × FS) :=
  let ext := ext_of file
  let flag_str := joinSpace flags
  match get_language b.languages ext with
  | none => .ok (none, { b with error := true }, fs)
  | some language =>
      if b.error then .ok (none, b, fs)
      else
        let obj_filename := obj_filename_of file language.object_extension
        match fs.mtime (b.object_path ++ '/' :: obj_filename) with
        | none => .ok (some ⟨file, flags, language⟩, b, fs)
        | some _ =>
            match query_source b.database.data file, fs.mtime file with
            | _, none => .error .fileNotFound
            | none, some _ => .ok (some ⟨file, flags, language⟩, b, fs)
            | some data, some time_stamp =>
                if data.last_write_time < time_stamp then
                  .ok (some ⟨file, flags, language⟩, b, fs)
                else if data.flags ≠ flag_str then
                  .ok (some ⟨file, flags, language⟩, b, fs)
                else
                  match depScan fs file now data.last_write_time data.dependencies with
                  | .error e => .error e
                  | .ok (true, fs') => .ok (some ⟨file, flags, language⟩, b, fs')
                  | .ok (false, fs') => .ok (none, b, fs')

/-- `Builder._check_source_path` inner loop over one group's files. -/
def check_files (env : Env) (now : Nat) (b : Builder) (fs : FS)
    (spPath : List Char) (spFlags : List (List Char)) :
    List (List Char) → Except PyErr (List SourceFile × Builder × FS)
  | [] => .ok ([], b, fs)
  | f :: rest =>
      match check_file env now b fs (env.abspath (spPath ++ '/' :: f)) spFlags with
      | .error e => .error e
      | .ok (osf, b1, fs1) =>
          match check_files env now b1 fs1 spPath spFlags rest with
          | .error e => .error e
          | .ok (l, b2, fs2) => .ok (osf.toList ++ l, b2, fs2)

/-- `Builder._check` loop: append the extra flags to each group in place,
then collect that group's stale files. -/
def check_paths (env : Env) (now : Nat) (b : Builder) (fs : FS)
    (flags : List (List Char)) :
    List SourcePath → Except PyErr (List SourceFile × List SourcePath × Builder × FS)
  | [] => .ok ([], [], b, fs)
  | p :: ps =>
      let p' : SourcePath := { p with flags := p.flags ++ flags }
      match check_files env now b fs p'.path p'.flags p'.files with
      | .error e => .error e
      | .ok (sfs, b1, fs1) =>
          match check_paths env now b1 fs1 flags ps with
          | .error e => .error e
          | .ok (rest, ps', b2, fs2) => .ok (sfs ++ rest, p' :: ps', b2, fs2)

/-- `Builder._check`. -/
def check (env : Env) (now : Nat) (b : Builder) (fs : FS) (flags : List (List Char)) :
    Except PyErr (List SourceFile × Builder × FS) :=
  match check_paths env now b fs flags b.source_paths with
  | .error e => .error e
  | .ok (sfs, ps', b', fs') => .ok (sfs, { b' with source_paths := ps' }, fs')

/-- One pass of the `_get_deps` line loop for a fixed consuming file: scan
each line, skip non-includes, already-collected and non-existing
dependencies, and descend (through `rec`, the resolver at the next smaller
fuel) into each newly collected dependency. -/
def depLines (scan : List Char → List Char → Option (List Char))
    (fs : FS)
    (rec : List Char → List (List Char) → Except PyErr (List (List Char)))
    (file : List Char) :
    List (List Char) → List (List Char) → Except PyErr (List (List Char))
  | [], result => .ok result
  | line :: rest, result =>
      match scan file line with
      | none => depLines scan fs rec file rest result
      | some dep =>
          if dep ∈ result ∨ (fs.mtime dep).isNone then
            depLines scan fs rec file rest result
          else
            match rec dep (result ++ [dep]) with
            | .error e => .error e
            | .ok result' => depLines scan fs rec file rest result'

/-- `Builder._get_deps`, fuel-bounded.  `result` is the accumulated set
(an insertion-ordered duplicate-free list). -/
def get_deps (env : Env) (lang : Language) (fs : FS) :
    Nat → List Char → List (List Char) → Except PyErr (List (List Char))
  | 0, _, _ => .error .fuelOut
  | fuel + 1, file, result =>
      if (fs.mtime file).isNone then .error .fileNotFound
      else depLines lang.scan fs (get_deps env lang fs fuel) file (fs.lines file) result

/-- `Builder._build_file`.  The final `Bool` records whether the compiler
driver was invoked.  On compile success the driver's contract materialises
the object file (mtime `now`); then dependencies are resolved, the current
source mtime and flag string recorded, and the object registered. -/
def build_file (env : Env) (now : Nat) (b : Builder) (fs : FS) (sf : SourceFile) :
    Except PyErr (Builder × FS × Bool) :=
  if b.error then .ok (b, fs, false)
  else
    let file := sf.path
    let flag_str := joinSpace sf.flags
    let obj_filename := obj_filename_of file sf.lang.object_extension
    if env.compileFails b.object_path obj_filename file b.build_type sf.flags then
      .ok ({ b with error := true }, fs, true)
    else
      let fs1 := fs.setMtime (b.object_path ++ '/' :: obj_filename) now
      let b1 := { b with should_link := true }
      match get_deps env sf.lang fs1 env.fuel file [] with
      | .error e => .error e
      | .ok deps =>
          match fs1.mtime file with
          | none => .error .fileNotFound
          | some write_time =>
              let data : SourceData := ⟨deps, write_time, flag_str⟩
              let d1 := update_source b1.database.data file data
              let d2 := add_object d1 obj_filename b.build_type
              .ok ({ b1 with database := { b1.database with data := d2 } }, fs1, true)

/-- The `_build` job loop, sequential in submission order (see the module
comment).  Accumulates the list of files on which the compiler was invoked. -/
def build_files (env : Env) (now : Nat) (b : Builder) (fs : FS) :
    List SourceFile → Except PyErr (Builder × FS × List (List Char))
  | [] => .ok (b, fs, [])
  | sf :: rest =>
      match build_file env now b fs sf with
      | .error e => .error e
      | .ok (b1, fs1, invoked) =>
          match build_files env now b1 fs1 rest with
          | .error e => .error e
          | .ok (b2, fs2, l) => .ok (b2, fs2, (if invoked then [sf.path] else []) ++ l)

/-- `Builder._build`: skip everything on a prior error, report a fatal
configuration error on a non-positive worker count, else run the jobs. -/
def build_phase (env : Env) (now : Nat) (b : Builder) (fs : FS)
    (files : List SourceFile) : Except PyErr (Builder × FS × List (List Char)) :=
  if b.error then .ok (b, fs, [])
  else if b.cores ≤ 0 then .ok ({ b with error := true }, fs, [])
  else build_files env now b fs files

/-- `Builder.build`: load the database, classify, compile, save, report.
The returned `Bool` is the Python return value (`True` = failure); the final
component lists the files the compiler driver was invoked on. -/
def build (env : Env) (now : Nat) (b : Builder) (fs : FS) (flags : List (List Char)) :
    Except PyErr (Bool × Builder × FS × List (List Char)) :=
  let b0 := { b with database := b.database.load }
  match check env now b0 fs flags with
  | .error e => .error e
  | .ok (files, b1, fs1) =>
      match build_phase env now b1 fs1 files with
      | .error e => .error e
      | .ok (b2, fs2, compiled) =>
          let b3 := { b2 with database := b2.database.save }
          .ok (b3.error, b3, fs2, compiled)

/-- `Builder.link`.  The final `Bool` records whether the linker driver was
invoked.  Mirrors the source ordering: prior compile error → `False`;
nothing to do and no persisted link failure → `False`; no linker → `True`;
otherwise collect the build type's object set (a raw subscript that raises
`KeyError` when absent), invoke the linker and persist the resulting flag. -/
def link (env : Env) (b : Builder) (flags : List (List Char)) :
    Except PyErr (Bool × Builder × Bool) :=
  if b.error then .ok (false, b, false)
  else if ¬ b.should_link ∧ ¬ b.database.data.link_error then .ok (false, b, false)
  else if b.linkerNone then .ok (true, b, false)
  else
    match get_objects b.database.data b.build_type with
    | .error e => .error e
    | .ok objs =>
        let objects := objs.map (fun o => b.object_path ++ '/' :: o)
        if env.linkFails b.output_path b.project_name b.build_type objects flags then
          let d := { b.database.data with link_error := true }
          .ok (true, { b with database := BuildDatabase.save { b.database with data := d } }, true)
        else
          let d := { b.database.data with link_error := false }
          .ok (false, { b with database := BuildDatabase.save { b.database with data := d } }, true)

/-! ### Basic lemmas about the embedded primitives -/

theorem lookupA_updateA_self {β : Type} (l : List (List Char × β)) (k : List Char) (v : β) :
    lookupA (updateA l k v) k = some v := by
  induction l with
  | nil => simp [updateA, lookupA]
  | cons h t ih =>
      obtain ⟨k', w⟩ := h
      by_cases hk : k' = k
      · simp [updateA, hk, lookupA]
      · simp [updateA, hk, lookupA, ih]

theorem lookupA_updateA_ne {β : Type} (l : List (List Char × β)) (k key : List Char) (v : β)
    (h : k ≠ key) : lookupA (updateA l key v) k = lookupA l k := by
  have h' : ¬ key = k := fun hh => h hh.symm
  induction l with
  | nil => simp [updateA, lookupA, h']
  | cons hd t ih =>
      obtain ⟨k', w⟩ := hd
      by_cases hk : k' = key
      · subst hk
        simp [updateA, lookupA, h']
      · simp [updateA, hk, lookupA, ih]

theorem FS.setMtime_self (fs : FS) (p : List Char) (t : Nat) :
    (fs.setMtime p t).mtime p = some t := by simp [FS.setMtime]

theorem FS.setMtime_ne (fs : FS) (p q : List Char) (t : Nat) (h : q ≠ p) :
    (fs.setMtime p t).mtime q = fs.mtime q := by simp [FS.setMtime, h]

theorem FS.setMtime_isSome (fs : FS) (p q : List Char) (t : Nat)
    (h : (fs.mtime q).isSome) : ((fs.setMtime p t).mtime q).isSome := by
  by_cases hq : q = p
  · subst hq; simp [FS.setMtime]
  · rwa [FS.setMtime_ne fs p q t hq]

theorem builder_error_eta (b : Builder) (h : b.error = true) :
    ({ b with error := true } : Builder) = b := by
  cases b; simp_all

theorem source_path_append_nil (p : SourcePath) :
    ({ p with flags := p.flags ++ [] } : SourcePath) = p := by
  cases p; simp

theorem BuildDatabase.load_of_saved (db : BuildDatabase) (h : db.store = some db.data) :
    db.load = db := by
  cases db; simp_all [BuildDatabase.load]

theorem BuildDatabase.save_of_saved (db : BuildDatabase) (h : db.store = some db.data) :
    db.save = db := by
  cases db; simp_all [BuildDatabase.save]

/-! ### C5: database save/load round trip -/

/-- C5: for every in-memory database state, `save()` followed by `load()`
restores a state whose data equals the original (its `sources` map,
`objects` map and `link_error` flag included, these being the fields of
`DatabaseFileContents`); and `load()` with no database file on disk
(`store = none`) leaves the in-memory default untouched.  Both operations
are total in the embedding — `load` on a missing file returns early in the
source, raising nothing. -/
theorem database_round_trip :
    (∀ db : BuildDatabase, db.save.load = db.save ∧ db.save.load.data = db.data) ∧
    (∀ d : DatabaseFileContents, (BuildDatabase.mk none d).load = BuildDatabase.mk none d) := by
  constructor
  · intro db
    constructor <;> simp [BuildDatabase.save, BuildDatabase.load]
  · intro d
    simp [BuildDatabase.load]

/-! ### C7: the object-filename derivation -/

theorem lastIdx_not_mem (s : List Char) (c : Char) (h : c ∉ s) : lastIdx s c = -1 := by
  induction s with
  | nil => simp [lastIdx]
  | cons a t ih =>
      simp only [List.mem_cons, not_or] at h
      have h' : ¬ a = c := fun hh => h.1 hh.symm
      simp [lastIdx, ih h.2, h']

theorem lastIdx_append_last (d r : List Char) (c : Char) (h : c ∉ r) :
    lastIdx (d ++ c :: r) c = (d.length : Int) := by
  induction d with
  | nil => simp [lastIdx, lastIdx_not_mem r c h]
  | cons a t ih =>
      have hstep : lastIdx ((a :: t) ++ c :: r) c
          = (if lastIdx (t ++ c :: r) c ≥ 0 then lastIdx (t ++ c :: r) c + 1
             else if a = c then 0 else -1) := rfl
      rw [hstep, ih]
      have hge : ((t.length : Int)) ≥ 0 := by omega
      rw [if_pos hge]
      simp [List.length_cons]

theorem pyNorm_coe (n m : Nat) (h : m ≤ n) : pyNorm n (m : Int) = m := by
  simp [pyNorm, h]

/-- Decomposing the Python slices of `_check_file` on a path of the shape
`dir ++ "/" ++ base ++ "." ++ e` where the basename and extension contain no
separator and the extension tail no dot. -/
theorem decompose_file (d base e : List Char)
    (hb : '/' ∉ base) (he : '/' ∉ e) (hde : '.' ∉ e) :
    source_filepath_of (d ++ '/' :: (base ++ '.' :: e)) = d ∧
    source_filename_of (d ++ '/' :: (base ++ '.' :: e)) = base := by
  have hslash : '/' ∉ base ++ '.' :: e := by
    simp only [List.mem_append, List.mem_cons, not_or]
    exact ⟨hb, by decide, he⟩
  have h1 : lastIdx (d ++ '/' :: (base ++ '.' :: e)) '/' = (d.length : Int) :=
    lastIdx_append_last d _ '/' hslash
  have hassoc : d ++ '/' :: (base ++ '.' :: e) = (d ++ '/' :: base) ++ '.' :: e := by
    simp
  have h2 : lastIdx (d ++ '/' :: (base ++ '.' :: e)) '.' =
      ((d.length + 1 + base.length : Nat) : Int) := by
    rw [hassoc, lastIdx_append_last (d ++ '/' :: base) e '.' hde]
    simp [List.length_append]
    omega
  have hlen : (d ++ '/' :: (base ++ '.' :: e)).length
      = d.length + 1 + base.length + 1 + e.length := by
    simp [List.length_append]
    omega
  constructor
  · unfold source_filepath_of pySlice
    rw [h1, hlen, pyNorm_coe _ _ (by omega)]
    have : pyNorm (d.length + 1 + base.length + 1 + e.length) 0 = 0 := by
      simp [pyNorm]
    rw [this, List.drop_zero]
    rw [show d ++ '/' :: (base ++ '.' :: e) = d ++ ('/' :: (base ++ '.' :: e)) from rfl]
    rw [List.take_left]
  · unfold source_filename_of pySlice
    rw [h1, h2, hlen]
    have hone : ((d.length : Int)) + 1 = ((d.length + 1 : Nat) : Int) := by omega
    rw [hone, pyNorm_coe _ _ (by omega), pyNorm_coe _ _ (by omega)]
    rw [hassoc]
    have htake : ((d ++ '/' :: base) ++ '.' :: e).take (d.length + 1 + base.length)
        = d ++ '/' :: base := by
      have : (d ++ '/' :: base).length = d.length + 1 + base.length := by
        simp [List.length_append]
        omega
      rw [← this, List.take_left]
    rw [htake]
    have : d ++ '/' :: base = (d ++ ['/']) ++ base := by simp
    rw [this]
    have : d.length + 1 = (d ++ ['/']).length := by simp
    rw [this, List.drop_left]

/-- The composite character substitution of
`.replace(SLASH, "_").replace(":", "_")`. -/
def mangle (c : Char) : Char :=
  if c = '/' then '_' else if c = ':' then '_' else c

theorem replace_replace (s : List Char) :
    pyReplaceChar (pyReplaceChar s '/' '_') ':' '_' = s.map mangle := by
  simp only [pyReplaceChar, List.map_map]
  refine List.map_congr_left ?_
  intro c _
  simp only [Function.comp, mangle]
  by_cases h1 : c = '/'
  · subst h1; decide
  · by_cases h2 : c = ':' <;> simp [h1, h2]

theorem mangle_inj {a b : Char} (ha1 : a ≠ '_') (ha2 : a ≠ ':')
    (hb1 : b ≠ '_') (hb2 : b ≠ ':') (h : mangle a = mangle b) : a = b := by
  unfold mangle at h
  by_cases h1 : a = '/' <;> by_cases h2 : b = '/'
  · rw [h1, h2]
  · rw [if_pos h1, if_neg h2, if_neg hb2] at h
    exact absurd h.symm hb1
  · rw [if_neg h1, if_neg ha2, if_pos h2] at h
    exact absurd h ha1
  · rw [if_neg h1, if_neg ha2, if_neg h2, if_neg hb2] at h
    exact h

theorem map_mangle_inj (d₁ d₂ : List Char)
    (h₁ : ∀ c ∈ d₁, c ≠ '_' ∧ c ≠ ':') (h₂ : ∀ c ∈ d₂, c ≠ '_' ∧ c ≠ ':')
    (h : d₁.map mangle = d₂.map mangle) : d₁ = d₂ := by
  induction d₁ generalizing d₂ with
  | nil => cases d₂ <;> simp_all
  | cons a t ih =>
      cases d₂ with
      | nil => simp_all
      | cons b t₂ =>
          simp only [List.map_cons, List.cons.injEq] at h
          obtain ⟨hab, ht⟩ := h
          have ha := h₁ a (by simp)
          have hb := h₂ b (by simp)
          have hob : a = b := mangle_inj ha.1 ha.2 hb.1 hb.2 hab
          subst hob
          have := ih t₂ (fun c hc => h₁ c (by simp [hc])) (fun c hc => h₂ c (by simp [hc])) ht
          rw [this]

/-- C7 counterexample: the derivation is not injective as claimed.  The two
distinct directories `/a_b` and `/a/b`, holding files of the same basename
`f`, yield the same derived object filename, because the filler character
`_` already occurs in the first directory name. -/
theorem obj_filename_collision :
    source_filepath_of "/a_b/f.c".toList ≠ source_filepath_of "/a/b/f.c".toList ∧
    source_filename_of "/a_b/f.c".toList = source_filename_of "/a/b/f.c".toList ∧
    obj_filename_of "/a_b/f.c".toList ".o".toList =
      obj_filename_of "/a/b/f.c".toList ".o".toList := by
  refine ⟨by decide, by decide, by decide⟩

/-- C7 amended: the derivation is injective across files with the same
basename in different directories PROVIDED neither directory contains the
filler character `_` or a drive colon `:` (otherwise the replacement
collides, see `obj_filename_collision`).  The basename and extension are
separator-free and the extension tail dot-free, as for any real source
filename. -/
theorem obj_filename_injective_amended
    (d₁ d₂ base e objExt : List Char)
    (hne : d₁ ≠ d₂)
    (h₁ : ∀ c ∈ d₁, c ≠ '_' ∧ c ≠ ':') (h₂ : ∀ c ∈ d₂, c ≠ '_' ∧ c ≠ ':')
    (hb : '/' ∉ base) (he : '/' ∉ e) (hde : '.' ∉ e) :
    obj_filename_of (d₁ ++ '/' :: (base ++ '.' :: e)) objExt ≠
      obj_filename_of (d₂ ++ '/' :: (base ++ '.' :: e)) objExt := by
  intro h
  unfold obj_filename_of obj_name_head at h
  rw [(decompose_file d₁ base e hb he hde).1, (decompose_file d₁ base e hb he hde).2,
      (decompose_file d₂ base e hb he hde).1, (decompose_file d₂ base e hb he hde).2,
      replace_replace, replace_replace] at h
  have h' : (d₁.map mangle ++ ['_']) ++ (base ++ objExt)
      = (d₂.map mangle ++ ['_']) ++ (base ++ objExt) := by
    simpa [List.append_assoc] using h
  have h'' : d₁.map mangle ++ ['_'] = d₂.map mangle ++ ['_'] :=
    List.append_cancel_right h'
  have h''' : d₁.map mangle = d₂.map mangle := List.append_cancel_right h''
  exact hne (map_mangle_inj d₁ d₂ h₁ h₂ h''')

/-- C7 amended, witnessed at concrete input: `/aa` vs `/ab`, basename `f`,
extension `.c`, object extension `.o`. -/
theorem obj_filename_injective_amended_witness :
    obj_filename_of "/aa/f.c".toList ".o".toList ≠
      obj_filename_of "/ab/f.c".toList ".o".toList :=
  obj_filename_injective_amended "/aa".toList "/ab".toList "f".toList "c".toList ".o".toList
    (by decide) (by decide) (by decide) (by decide) (by decide) (by decide)

/-! ### C8 / C4: the `link()` contract -/

/-- An environment whose toolchain drivers always succeed and whose
`abspath` is the identity (paths are already absolute in the scenarios
below). -/
def plainEnv : Env :=
  { abspath := fun s => s
    compileFails := fun _ _ _ _ _ => false
    linkFails := fun _ _ _ _ _ => false
    fuel := 6 }

/-- A persisted database with a recorded link failure and no `objects`
entry at all — the state a failed `debug` link leaves behind for a builder
later configured with a different build type. -/
def linkErrOnlyDB : DatabaseFileContents :=
  { link_error := true, sources := [], objects := [("debug".toList, ["d.o".toList])] }

/-- A builder configured for `release_fast` over the `linkErrOnlyDB` state:
fresh instance (no compile yet, no error), a linker present, zero sources. -/
def staleLinkBuilder : Builder :=
  { project_name := "app".toList
    build_type := "release_fast".toList
    languages := []
    source_paths := []
    linkerNone := false
    output_path := "/build/release_fast".toList
    object_path := "/build/.pybaker/objects_release_fast".toList
    database := ⟨some linkErrOnlyDB, linkErrOnlyDB⟩
    should_link := false
    error := false
    cores := 1 }

/-- C8 fails on the code (code bug): with a persisted link error and no
`objects` entry for the configured build type, `link()` does not return a
boolean — `_BuildDatabase.get_objects` performs a raw `dict` subscript and
the `KeyError` escapes `link()`.  The claim (and §7 of the spec: "no
exceptions cross the build()/link() boundary") states a boolean is always
returned; `query_source` shows the guarded access the author uses elsewhere,
so the unguarded subscript is a slip. -/
theorem link_keyError_on_missing_objects_entry :
    link plainEnv staleLinkBuilder [] = .error .keyError := by rfl

/-- A builder in the same predicament under build type `release_small`,
used to exhibit that C4's "in every other case it invokes the linker …
and persists the resulting link-error flag" is falsified by the code. -/
def staleLinkBuilderSmall : Builder :=
  { staleLinkBuilder with
      build_type := "release_small".toList
      output_path := "/build/release_small".toList
      object_path := "/build/.pybaker/objects_release_small".toList }

/-- C4 counterexample: a state outside the claim's two no-op cases (no
compile error, a persisted link failure) and with a linker configured, in
which `link()` neither invokes the linker nor persists a link-error flag:
it raises `KeyError` out of the objects lookup instead.  So "in every other
case it invokes the linker … and persists the resulting link-error flag"
is false as stated. -/
theorem link_contract_counterexample :
    staleLinkBuilderSmall.error = false ∧
    staleLinkBuilderSmall.database.data.link_error = true ∧
    staleLinkBuilderSmall.linkerNone = false ∧
    link plainEnv staleLinkBuilderSmall [] = .error .keyError := by
  refine ⟨rfl, rfl, rfl, rfl⟩

/-- The builder state `link()` leaves behind after an attempted link whose
driver reported `fails`: the flag persisted into the database and the
database saved, everything else untouched. -/
def linkResultBuilder (b : Builder) (fails : Bool) : Builder :=
  { b with
      database := BuildDatabase.save
        { b.database with data := { b.database.data with link_error := fails } } }

/-- C4 amended: `link()` returns non-failure without invoking the linker
after a compile-phase error, and likewise when nothing was rebuilt and no
link error is persisted; in every other case — PROVIDED a linker is
configured and the objects map has an entry for the configured build type
(see `link_contract_counterexample` for the uncovered lookup) — it invokes
the linker on the recorded object set and persists the resulting link-error
flag regardless of outcome.  Consequently (third conjunct with
`should_link = false` and a persisted `link_error = true`) a later
invocation with zero changed sources still attempts the link, and (second
conjunct) retries stop once a link has succeeded and cleared the flag. -/
theorem link_contract_amended (env : Env) (b : Builder) (flags : List (List Char))
    (objs : List (List Char)) :
    (b.error = true → link env b flags = .ok (false, b, false)) ∧
    (b.error = false → b.should_link = false → b.database.data.link_error = false →
      link env b flags = .ok (false, b, false)) ∧
    (b.error = false → (b.should_link = true ∨ b.database.data.link_error = true) →
      b.linkerNone = false →
      lookupA b.database.data.objects b.build_type = some objs →
      link env b flags =
        .ok (env.linkFails b.output_path b.project_name b.build_type
               (objs.map (fun o => b.object_path ++ '/' :: o)) flags,
             linkResultBuilder b
               (env.linkFails b.output_path b.project_name b.build_type
                 (objs.map (fun o => b.object_path ++ '/' :: o)) flags),
             true)) := by
  refine ⟨?_, ?_, ?_⟩
  · intro he
    simp [link, he]
  · intro he hs hl
    simp [link, he, hs, hl]
  · intro he hsl hln hobj
    cases hf : env.linkFails b.output_path b.project_name b.build_type
        (objs.map (fun o => b.object_path ++ '/' :: o)) flags with
    | true =>
        rcases hsl with h | h <;>
          simp [link, he, h, hln, get_objects, hobj, hf, linkResultBuilder,
            BuildDatabase.save]
    | false =>
        rcases hsl with h | h <;>
          simp [link, he, h, hln, get_objects, hobj, hf, linkResultBuilder,
            BuildDatabase.save]

/-- C4 amended, witnessed: the retry conjunct applied at a concrete state
(nothing rebuilt, persisted link failure, objects entry present): the link
is attempted and, the linker failing again, failure is returned, persisted
and saved. -/
def failLinkEnv : Env :=
  { plainEnv with linkFails := fun _ _ _ _ _ => true }

def retryBuilder : Builder :=
  { staleLinkBuilder with
      build_type := "debug".toList
      output_path := "/build/debug".toList
      object_path := "/build/.pybaker/objects_debug".toList }

theorem link_contract_amended_witness :
    retryBuilder.error = false ∧ retryBuilder.should_link = false ∧
    retryBuilder.database.data.link_error = true ∧
    link failLinkEnv retryBuilder [] =
      .ok (true, linkResultBuilder retryBuilder true, true) :=
  ⟨rfl, rfl, rfl,
    (link_contract_amended failLinkEnv retryBuilder [] ["d.o".toList]).2.2
      rfl (Or.inr rfl) rfl rfl⟩

/-! ### Case analysis of the staleness checker -/

theorem depScan_cases (fs : FS) (file : List Char) (now lwt : Nat) :
    ∀ (deps : List (List Char)) (st : Bool) (fs' : FS),
      depScan fs file now lwt deps = .ok (st, fs') →
      (st = false ∧ fs' = fs) ∨ (st = true ∧ fs' = fs.setMtime file now) := by
  intro deps
  induction deps with
  | nil =>
      intro st fs' h
      simp only [depScan, Except.ok.injEq, Prod.mk.injEq] at h
      exact Or.inl ⟨h.1.symm, h.2.symm⟩
  | cons d ds ih =>
      intro st fs' h
      simp only [depScan] at h
      cases hm : fs.mtime d with
      | none =>
          simp only [hm] at h
          exact Except.noConfusion h
      | some t =>
          simp only [hm] at h
          by_cases hlt : lwt < t
          · rw [if_pos hlt] at h
            simp only [Except.ok.injEq, Prod.mk.injEq] at h
            exact Or.inr ⟨h.1.symm, h.2.symm⟩
          · rw [if_neg hlt] at h
            exact ih st fs' h

/-- If every recorded dependency exists, the rule-5 loop cannot raise: it
reports whether some dependency is strictly newer than the recorded source
mtime, bumping the source file's mtime exactly in that case. -/
theorem depScan_total (fs : FS) (file : List Char) (now lwt : Nat) :
    ∀ (deps : List (List Char)),
      (∀ dep ∈ deps, (fs.mtime dep).isSome) →
      depScan fs file now lwt deps =
        (if deps.any (fun dep => lwt < (fs.mtime dep).getD 0)
         then .ok (true, fs.setMtime file now) else .ok (false, fs)) := by
  intro deps
  induction deps with
  | nil => intro _; simp [depScan]
  | cons d ds ih =>
      intro hex
      obtain ⟨t, ht⟩ := Option.isSome_iff_exists.mp (hex d (by simp))
      simp only [depScan, ht]
      by_cases hlt : lwt < t
      · rw [if_pos hlt]
        have hany : (d :: ds).any (fun dep => lwt < (fs.mtime dep).getD 0) = true := by
          simp only [List.any_cons, Bool.or_eq_true, decide_eq_true_eq]
          exact Or.inl (by rw [ht]; exact hlt)
        rw [hany, if_pos rfl]
      · rw [if_neg hlt, ih (fun dep hd => hex dep (by simp [hd]))]
        have hsame : ((d :: ds).any (fun dep => lwt < (fs.mtime dep).getD 0))
            = (ds.any (fun dep => lwt < (fs.mtime dep).getD 0)) := by
          simp only [List.any_cons, ht]
          simp [hlt]
        rw [hsame]

/-- Full case analysis of `_check_file` on a non-raising run: the
unsupported-language branch sets the error flag; a prior error skips; else
the builder is untouched and the file is either scheduled (possibly with the
rule-5 mtime bump) or found fresh, the fresh case certifying the object's
existence and a matching database record. -/
theorem check_file_cases (env : Env) (now : Nat) (b : Builder) (fs : FS)
    (file : List Char) (flags : List (List Char)) (r : Option SourceFile)
    (b' : Builder) (fs' : FS)
    (h : check_file env now b fs file flags = .ok (r, b', fs')) :
    (get_language b.languages (ext_of file) = none ∧ r = none ∧
      b' = { b with error := true } ∧ fs' = fs) ∨
    (∃ lang, get_language b.languages (ext_of file) = some lang ∧
      ((b.error = true ∧ r = none ∧ b' = b ∧ fs' = fs) ∨
       (b.error = false ∧ b' = b ∧
         ((r = some ⟨file, flags, lang⟩ ∧ (fs' = fs ∨ fs' = fs.setMtime file now)) ∨
          (r = none ∧ fs' = fs ∧
            (fs.mtime (b.object_path ++ '/' :: obj_filename_of file lang.object_extension)).isSome ∧
            ∃ data ts, query_source b.database.data file = some data ∧
              fs.mtime file = some ts ∧ ¬ data.last_write_time < ts ∧
              data.flags = joinSpace flags))))) := by
  simp only [check_file] at h
  cases hL : get_language b.languages (ext_of file) with
  | none =>
      simp only [hL, Except.ok.injEq, Prod.mk.injEq] at h
      exact Or.inl ⟨rfl, h.1.symm, h.2.1.symm, h.2.2.symm⟩
  | some lang =>
      simp only [hL] at h
      refine Or.inr ⟨lang, rfl, ?_⟩
      by_cases hb : b.error = true
      · rw [if_pos hb] at h
        simp only [Except.ok.injEq, Prod.mk.injEq] at h
        exact Or.inl ⟨hb, h.1.symm, h.2.1.symm, h.2.2.symm⟩
      · rw [if_neg hb] at h
        have hb' : b.error = false := by
          cases hbe : b.error
          · rfl
          · exact absurd hbe hb
        refine Or.inr ⟨hb', ?_⟩
        cases hobj : fs.mtime (b.object_path ++ '/' :: obj_filename_of file lang.object_extension) with
        | none =>
            simp only [hobj, Except.ok.injEq, Prod.mk.injEq] at h
            exact ⟨h.2.1.symm, Or.inl ⟨h.1.symm, Or.inl h.2.2.symm⟩⟩
        | some tOb =>
            simp only [hobj] at h
            cases hm : fs.mtime file with
            | none =>
                cases hq : query_source b.database.data file <;>
                  (simp only [hq, hm] at h; exact Except.noConfusion h)
            | some ts =>
                cases hq : query_source b.database.data file with
                | none =>
                    simp only [hq, hm, Except.ok.injEq, Prod.mk.injEq] at h
                    exact ⟨h.2.1.symm, Or.inl ⟨h.1.symm, Or.inl h.2.2.symm⟩⟩
                | some data =>
                    simp only [hq, hm] at h
                    by_cases hlt : data.last_write_time < ts
                    · rw [if_pos hlt] at h
                      simp only [Except.ok.injEq, Prod.mk.injEq] at h
                      exact ⟨h.2.1.symm, Or.inl ⟨h.1.symm, Or.inl h.2.2.symm⟩⟩
                    · rw [if_neg hlt] at h
                      by_cases hne : data.flags ≠ joinSpace flags
                      · rw [if_pos hne] at h
                        simp only [Except.ok.injEq, Prod.mk.injEq] at h
                        exact ⟨h.2.1.symm, Or.inl ⟨h.1.symm, Or.inl h.2.2.symm⟩⟩
                      · rw [if_neg hne] at h
                        push_neg at hne
                        cases hds : depScan fs file now data.last_write_time data.dependencies with
                        | error e =>
                            simp only [hds] at h
                            exact Except.noConfusion h
                        | ok res =>
                            obtain ⟨st, fs''⟩ := res
                            simp only [hds] at h
                            cases st with
                            | true =>
                                simp only [Except.ok.injEq, Prod.mk.injEq] at h
                                rcases depScan_cases fs file now data.last_write_time
                                    data.dependencies true fs'' hds with
                                  ⟨hfalse, _⟩ | ⟨_, hbump⟩
                                · exact absurd hfalse (by simp)
                                · refine ⟨h.2.1.symm, Or.inl ⟨h.1.symm, Or.inr ?_⟩⟩
                                  rw [← h.2.2]
                                  exact hbump
                            | false =>
                                simp only [Except.ok.injEq, Prod.mk.injEq] at h
                                rcases depScan_cases fs file now data.last_write_time
                                    data.dependencies false fs'' hds with
                                  ⟨_, hsame⟩ | ⟨htrue, _⟩
                                · refine ⟨h.2.1.symm,
                                    Or.inr ⟨h.1.symm, ?_, ?_, data, ts, rfl, rfl, hlt, hne⟩⟩
                                  · rw [← h.2.2]; exact hsame
                                  · rfl
                                · exact absurd htrue (by simp)

/-! ### Behaviour under a previously recorded error (C9) -/

theorem check_file_of_error (env : Env) (now : Nat) (b : Builder) (fs : FS)
    (file : List Char) (flags : List (List Char)) (hb : b.error = true) :
    check_file env now b fs file flags = .ok (none, b, fs) := by
  simp only [check_file]
  split
  · rw [builder_error_eta b hb]
  · rw [if_pos hb]

theorem check_files_of_error (env : Env) (now : Nat) (b : Builder) (fs : FS)
    (P : List Char) (σ : List (List Char)) (files : List (List Char))
    (hb : b.error = true) :
    check_files env now b fs P σ files = .ok ([], b, fs) := by
  induction files with
  | nil => simp [check_files]
  | cons f rest ih =>
      simp [check_files, check_file_of_error env now b fs _ _ hb, ih]

theorem check_paths_of_error (env : Env) (now : Nat) (b : Builder) (fs : FS)
    (flags : List (List Char)) (ps : List SourcePath) (hb : b.error = true) :
    check_paths env now b fs flags ps =
      .ok ([], ps.map (fun p => { p with flags := p.flags ++ flags }), b, fs) := by
  induction ps with
  | nil => simp [check_paths]
  | cons p rest ih =>
      simp [check_paths, check_files_of_error env now b fs _ _ _ hb, ih]

theorem check_of_error (env : Env) (now : Nat) (b : Builder) (fs : FS)
    (flags : List (List Char)) (hb : b.error = true) :
    check env now b fs flags =
      .ok ([], { b with source_paths :=
          b.source_paths.map (fun p => { p with flags := p.flags ++ flags }) }, fs) := by
  simp [check, check_paths_of_error env now b fs flags b.source_paths hb]

/-- C9: the builder's error flag, once set, is never reset, and it
short-circuits the whole lifecycle: a `build()` on an errored builder
performs no staleness decision and no compilation (the filesystem comes
back untouched and the compile list is empty — only the database
load/save bracket and the in-place flag append still happen), and returns
failure; `link()` on it returns non-failure without ever invoking the
linker driver (third component `false`). -/
theorem error_flag_sticky (env : Env) (now : Nat) (b : Builder) (fs : FS)
    (flags : List (List Char)) (hb : b.error = true) :
    build env now b fs flags =
      .ok (true,
        { b with
            database := b.database.load.save
            source_paths := b.source_paths.map (fun p => { p with flags := p.flags ++ flags }) },
        fs, []) ∧
    link env b flags = .ok (false, b, false) := by
  constructor
  · simp only [build]
    rw [check_of_error env now _ fs flags (by simpa using hb)]
    simp [build_phase, hb]
  · simp [link, hb]

/-- The totally empty filesystem. -/
def emptyFS : FS := ⟨fun _ => none, fun _ => []⟩

/-- A builder whose compile phase has failed. -/
def erroredBuilder : Builder := { staleLinkBuilder with error := true }

theorem error_flag_sticky_witness :
    build plainEnv 0 erroredBuilder emptyFS [] =
      .ok (true,
        { erroredBuilder with
            database := erroredBuilder.database.load.save
            source_paths := erroredBuilder.source_paths.map
              (fun p => { p with flags := p.flags ++ [] }) },
        emptyFS, []) ∧
    link plainEnv erroredBuilder [] = .ok (false, erroredBuilder, false) :=
  error_flag_sticky plainEnv 0 erroredBuilder emptyFS [] rfl

/-! ### C6: the database is written only after a successful compile -/

/-- The builder state a successful `_build_file` leaves behind: the
should-link flag raised, the new `SourceData` recorded under the file's
path, and the derived object name added to the build type's set. -/
def compiledBuilder (b : Builder) (file : List Char) (data : SourceData)
    (objName : List Char) : Builder :=
  { b with
      should_link := true
      database :=
        { b.database with
            data := add_object (update_source b.database.data file data) objName b.build_type } }

/-- C6: `_build_file` writes the database only on compiler success.  If the
driver reports failure for the scheduled file and flags, the builder comes
back with only the error flag set — its database (both the `sources` entry
and the build type's object set) and its should-link flag are exactly the
input ones.  If the driver reports success (and dependency resolution and
the final stat return), a new `SourceData` carrying the resolved dependency
set, the file's current mtime and the flattened flag string is recorded,
and the derived object name is added to the current build type's set. -/
theorem build_file_success_contract (env : Env) (now : Nat) (b : Builder) (fs : FS)
    (sf : SourceFile) (hb : b.error = false) :
    (env.compileFails b.object_path (obj_filename_of sf.path sf.lang.object_extension)
        sf.path b.build_type sf.flags = true →
      build_file env now b fs sf = .ok ({ b with error := true }, fs, true)) ∧
    (env.compileFails b.object_path (obj_filename_of sf.path sf.lang.object_extension)
        sf.path b.build_type sf.flags = false →
      ∀ deps w,
        get_deps env sf.lang
            (fs.setMtime (b.object_path ++ '/' :: obj_filename_of sf.path sf.lang.object_extension) now)
            env.fuel sf.path [] = .ok deps →
        (fs.setMtime (b.object_path ++ '/' :: obj_filename_of sf.path sf.lang.object_extension)
            now).mtime sf.path = some w →
        build_file env now b fs sf =
          .ok (compiledBuilder b sf.path ⟨deps, w, joinSpace sf.flags⟩
                 (obj_filename_of sf.path sf.lang.object_extension),
               fs.setMtime (b.object_path ++ '/' :: obj_filename_of sf.path sf.lang.object_extension) now,
               true)) := by
  constructor
  · intro hcf
    simp [build_file, hb, hcf]
  · intro hcf deps w hdeps hw
    simp [build_file, hb, hcf, hdeps, hw, compiledBuilder]

/-- Witness scenario for C6: a single dependency-free source file. -/
def c6Lang : Language := ⟨[".c".toList], fun _ _ => none, ".o".toList⟩

def c6FS : FS := ⟨fun p => if p = "/s/a.c".toList then some 5 else none, fun _ => []⟩

def c6Builder : Builder :=
  { project_name := "app".toList
    build_type := "debug".toList
    languages := [c6Lang]
    source_paths := []
    linkerNone := false
    output_path := "/b/debug".toList
    object_path := "/b/.pybaker/objects_debug".toList
    database := ⟨none, DatabaseFileContents.empty⟩
    should_link := false
    error := false
    cores := 1 }

def c6SF : SourceFile := ⟨"/s/a.c".toList, [], c6Lang⟩

theorem build_file_success_contract_witness :
    build_file plainEnv 9 c6Builder c6FS c6SF =
      .ok (compiledBuilder c6Builder "/s/a.c".toList ⟨[], 5, []⟩
             (obj_filename_of "/s/a.c".toList ".o".toList),
           c6FS.setMtime ("/b/.pybaker/objects_debug".toList ++ '/' ::
             obj_filename_of "/s/a.c".toList ".o".toList) 9,
           true) :=
  (build_file_success_contract plainEnv 9 c6Builder c6FS c6SF rfl).2 rfl [] 5 (by rfl) (by rfl)

/-! ### C10: extra build flags accumulate in place -/

theorem joinSpace_cons_cons (x y : List Char) (l : List (List Char)) :
    joinSpace (x :: y :: l) = x ++ ' ' :: joinSpace (y :: l) := rfl

theorem joinSpace_append_length (ys : List (List Char)) (hy : ys ≠ []) :
    ∀ xs : List (List Char), xs ≠ [] →
      (joinSpace (xs ++ ys)).length = (joinSpace xs).length + 1 + (joinSpace ys).length := by
  intro xs
  induction xs with
  | nil => intro hx; exact absurd rfl hx
  | cons x xs ih =>
      intro _
      cases hxs : xs with
      | nil =>
          cases ys with
          | nil => exact absurd rfl hy
          | cons y ys' =>
              rw [show (([x] : List (List Char)) ++ y :: ys') = x :: y :: ys' from rfl,
                  joinSpace_cons_cons]
              simp [joinSpace, List.length_append]
              omega
      | cons x' xs'' =>
          subst hxs
          rw [show ((x :: x' :: xs'') ++ ys) = x :: ((x' :: xs'') ++ ys) from rfl]
          rw [show ((x' :: xs'') ++ ys) = x' :: (xs'' ++ ys) from rfl]
          rw [joinSpace_cons_cons, joinSpace_cons_cons]
          have ih' := ih (by simp)
          rw [show ((x' :: xs'') ++ ys) = x' :: (xs'' ++ ys) from rfl] at ih'
          simp only [List.length_append, List.length_cons] at *
          omega

/-- Appending a non-empty flag list a second time always changes the
flattened flag string: the string gets strictly longer. -/
theorem joinSpace_twice_ne (old fl : List (List Char)) (h : fl ≠ []) :
    joinSpace ((old ++ fl) ++ fl) ≠ joinSpace (old ++ fl) := by
  intro he
  have hx : old ++ fl ≠ [] := by
    intro hc
    exact h (List.append_eq_nil.mp hc).2
  have h1 := joinSpace_append_length fl h (old ++ fl) hx
  rw [he] at h1
  omega

theorem check_paths_paths_out (env : Env) (now : Nat) (flags : List (List Char)) :
    ∀ (ps : List SourcePath) (b : Builder) (fs : FS) (L : List SourceFile)
      (ps' : List SourcePath) (b' : Builder) (fs' : FS),
      check_paths env now b fs flags ps = .ok (L, ps', b', fs') →
      ps' = ps.map (fun p => { p with flags := p.flags ++ flags }) := by
  intro ps
  induction ps with
  | nil =>
      intro b fs L ps' b' fs' h
      simp only [check_paths, Except.ok.injEq, Prod.mk.injEq] at h
      simp [← h.2.1]
  | cons p rest ih =>
      intro b fs L ps' b' fs' h
      simp only [check_paths] at h
      cases hcf : check_files env now b fs p.path (p.flags ++ flags) p.files with
      | error e => simp only [hcf] at h; exact Except.noConfusion h
      | ok res1 =>
          obtain ⟨sfs, b1, fs1⟩ := res1
          simp only [hcf] at h
          cases hcp : check_paths env now b1 fs1 flags rest with
          | error e => simp only [hcp] at h; exact Except.noConfusion h
          | ok res2 =>
              obtain ⟨rest', ps'', b2, fs2⟩ := res2
              simp only [hcp] at h
              simp only [Except.ok.injEq, Prod.mk.injEq] at h
              rw [← h.2.1, List.map_cons, ih b1 fs1 rest' ps'' b2 fs2 hcp]

theorem check_source_paths (env : Env) (now : Nat) (b : Builder) (fs : FS)
    (flags : List (List Char)) (L : List SourceFile) (b' : Builder) (fs' : FS)
    (h : check env now b fs flags = .ok (L, b', fs')) :
    b'.source_paths = b.source_paths.map (fun p => { p with flags := p.flags ++ flags }) := by
  simp only [check] at h
  cases hcp : check_paths env now b fs flags b.source_paths with
  | error e => simp only [hcp] at h; exact Except.noConfusion h
  | ok res =>
      obtain ⟨sfs, ps', b'', fs''⟩ := res
      simp only [hcp] at h
      simp only [Except.ok.injEq, Prod.mk.injEq] at h
      rw [← h.2.1]
      exact check_paths_paths_out env now flags b.source_paths b fs sfs ps' b'' fs'' hcp

theorem build_file_fields (env : Env) (now : Nat) (b : Builder) (fs : FS)
    (sf : SourceFile) (b' : Builder) (fs' : FS) (inv : Bool)
    (h : build_file env now b fs sf = .ok (b', fs', inv)) :
    b'.source_paths = b.source_paths ∧ b'.languages = b.languages ∧
    b'.object_path = b.object_path ∧ b'.build_type = b.build_type ∧
    b'.cores = b.cores ∧ b'.database.store = b.database.store := by
  simp only [build_file] at h
  by_cases hb : b.error = true
  · rw [if_pos hb] at h
    simp only [Except.ok.injEq, Prod.mk.injEq] at h
    rw [← h.1]
    exact ⟨rfl, rfl, rfl, rfl, rfl, rfl⟩
  · rw [if_neg hb] at h
    by_cases hcf : env.compileFails b.object_path
        (obj_filename_of sf.path sf.lang.object_extension) sf.path b.build_type sf.flags = true
    · rw [if_pos hcf] at h
      simp only [Except.ok.injEq, Prod.mk.injEq] at h
      rw [← h.1]
      exact ⟨rfl, rfl, rfl, rfl, rfl, rfl⟩
    · rw [if_neg hcf] at h
      cases hgd : get_deps env sf.lang
          (fs.setMtime (b.object_path ++ '/' :: obj_filename_of sf.path sf.lang.object_extension) now)
          env.fuel sf.path [] with
      | error e => simp only [hgd] at h; exact Except.noConfusion h
      | ok deps =>
          simp only [hgd] at h
          cases hw : (fs.setMtime
              (b.object_path ++ '/' :: obj_filename_of sf.path sf.lang.object_extension)
              now).mtime sf.path with
          | none => simp only [hw] at h; exact Except.noConfusion h
          | some w =>
              simp only [hw] at h
              simp only [Except.ok.injEq, Prod.mk.injEq] at h
              rw [← h.1]
              exact ⟨rfl, rfl, rfl, rfl, rfl, rfl⟩

theorem build_files_fields (env : Env) (now : Nat) :
    ∀ (L : List SourceFile) (b : Builder) (fs : FS) (b' : Builder) (fs' : FS)
      (c : List (List Char)),
      build_files env now b fs L = .ok (b', fs', c) →
      b'.source_paths = b.source_paths ∧ b'.languages = b.languages ∧
      b'.object_path = b.object_path ∧ b'.build_type = b.build_type ∧
      b'.cores = b.cores ∧ b'.database.store = b.database.store := by
  intro L
  induction L with
  | nil =>
      intro b fs b' fs' c h
      simp only [build_files, Except.ok.injEq, Prod.mk.injEq] at h
      rw [← h.1]
      exact ⟨rfl, rfl, rfl, rfl, rfl, rfl⟩
  | cons sf rest ih =>
      intro b fs b' fs' c h
      simp only [build_files] at h
      cases hbf : build_file env now b fs sf with
      | error e => simp only [hbf] at h; exact Except.noConfusion h
      | ok res =>
          obtain ⟨b1, fs1, inv⟩ := res
          simp only [hbf] at h
          cases hbfs : build_files env now b1 fs1 rest with
          | error e => simp only [hbfs] at h; exact Except.noConfusion h
          | ok res2 =>
              obtain ⟨b2, fs2, l⟩ := res2
              simp only [hbfs] at h
              simp only [Except.ok.injEq, Prod.mk.injEq] at h
              obtain ⟨f1a, f1b, f1c, f1d, f1e, f1f⟩ :=
                build_file_fields env now b fs sf b1 fs1 inv hbf
              obtain ⟨f2a, f2b, f2c, f2d, f2e, f2f⟩ := ih b1 fs1 b2 fs2 l hbfs
              rw [← h.1]
              exact ⟨f2a.trans f1a, f2b.trans f1b, f2c.trans f1c, f2d.trans f1d,
                f2e.trans f1e, f2f.trans f1f⟩

theorem build_phase_fields (env : Env) (now : Nat) (b : Builder) (fs : FS)
    (L : List SourceFile) (b' : Builder) (fs' : FS) (c : List (List Char))
    (h : build_phase env now b fs L = .ok (b', fs', c)) :
    b'.source_paths = b.source_paths ∧ b'.languages = b.languages ∧
    b'.object_path = b.object_path ∧ b'.build_type = b.build_type ∧
    b'.cores = b.cores ∧ b'.database.store = b.database.store := by
  simp only [build_phase] at h
  by_cases hb : b.error = true
  · rw [if_pos hb] at h
    simp only [Except.ok.injEq, Prod.mk.injEq] at h
    rw [← h.1]
    exact ⟨rfl, rfl, rfl, rfl, rfl, rfl⟩
  · rw [if_neg hb] at h
    by_cases hc : b.cores ≤ 0
    · rw [if_pos hc] at h
      simp only [Except.ok.injEq, Prod.mk.injEq] at h
      rw [← h.1]
      exact ⟨rfl, rfl, rfl, rfl, rfl, rfl⟩
    · rw [if_neg hc] at h
      exact build_files_fields env now L b fs b' fs' c h

/-- C10: (1) a successful `build(flags)` leaves every registered
`SourcePath` with `flags` appended in place to its flag list; (2) appending
a non-empty flag list twice yields a flattened flag string different from
appending it once (so files recorded under the first call's string see a
different current string on the second call); (3) a file whose database
record carries the first call's flag string and whose object and mtime are
otherwise up to date is reclassified stale by `_check_file` purely through
the flag-difference rule when checked under the twice-appended flags. -/
theorem build_flags_not_idempotent
    (env : Env) (now : Nat) (b : Builder) (fs : FS) (flags : List (List Char))
    (old fl : List (List Char)) (file : List Char)
    (lang : Language) (data : SourceData) (ts : Nat) :
    (∀ r b' fs' c, build env now b fs flags = .ok (r, b', fs', c) →
        b'.source_paths = b.source_paths.map (fun p => { p with flags := p.flags ++ flags })) ∧
    (fl ≠ [] → joinSpace ((old ++ fl) ++ fl) ≠ joinSpace (old ++ fl)) ∧
    (get_language b.languages (ext_of file) = some lang →
     b.error = false →
     (fs.mtime (b.object_path ++ '/' :: obj_filename_of file lang.object_extension)).isSome →
     query_source b.database.data file = some data →
     fs.mtime file = some ts →
     ¬ data.last_write_time < ts →
     data.flags = joinSpace (old ++ fl) →
     fl ≠ [] →
     check_file env now b fs file ((old ++ fl) ++ fl) =
       .ok (some ⟨file, (old ++ fl) ++ fl, lang⟩, b, fs)) := by
  refine ⟨?_, ?_, ?_⟩
  · intro r b' fs' c h
    simp only [build] at h
    cases hc : check env now { b with database := b.database.load } fs flags with
    | error e => simp only [hc] at h; exact Except.noConfusion h
    | ok res =>
        obtain ⟨L, b1, fs1⟩ := res
        simp only [hc] at h
        cases hp : build_phase env now b1 fs1 L with
        | error e => simp only [hp] at h; exact Except.noConfusion h
        | ok res2 =>
            obtain ⟨b2, fs2, comp⟩ := res2
            simp only [hp] at h
            simp only [Except.ok.injEq, Prod.mk.injEq] at h
            have hsp : b'.source_paths = b2.source_paths := by rw [← h.2.1]
            have hb2 := (build_phase_fields env now b1 fs1 L b2 fs2 comp hp).1
            have hb1 := check_source_paths env now _ fs flags L b1 fs1 hc
            rw [hsp, hb2, hb1]
  · intro hne
    exact joinSpace_twice_ne old fl hne
  · intro hlang hb hobj hdata hts hlt hfl hne
    obtain ⟨tOb, htOb⟩ := Option.isSome_iff_exists.mp hobj
    simp only [check_file, hlang, htOb, hdata, hts]
    rw [if_neg (by simp [hb]), if_neg hlt]
    have hflne : data.flags ≠ joinSpace ((old ++ fl) ++ fl) := by
      rw [hfl]
      exact fun hc => joinSpace_twice_ne old fl hne hc.symm
    rw [if_pos hflne]

/-- Witness scenario for C10: a file compiled under flags `-g -O` and then
re-checked after `build(["-O"])` appended `-O` a second time. -/
def c10Data : SourceData := ⟨[], 5, joinSpace (["-g".toList] ++ ["-O".toList])⟩

def c10DB : DatabaseFileContents := ⟨false, [("/s/a.c".toList, c10Data)], []⟩

def c10FS : FS :=
  ⟨fun p => if p = "/s/a.c".toList then some 5
    else if p = "/o".toList ++ '/' :: obj_filename_of "/s/a.c".toList ".o".toList then some 7
    else none,
   fun _ => []⟩

def c10Builder : Builder :=
  { c6Builder with
      object_path := "/o".toList
      database := ⟨some c10DB, c10DB⟩
      source_paths := [⟨"/s".toList, ["a.c".toList], ["-g".toList, "-O".toList]⟩] }

theorem build_flags_not_idempotent_witness :
    joinSpace ((["-g".toList] ++ ["-O".toList]) ++ ["-O".toList]) ≠
      joinSpace (["-g".toList] ++ ["-O".toList]) ∧
    check_file plainEnv 30 c10Builder c10FS "/s/a.c".toList
        ((["-g".toList] ++ ["-O".toList]) ++ ["-O".toList]) =
      .ok (some ⟨"/s/a.c".toList, (["-g".toList] ++ ["-O".toList]) ++ ["-O".toList], c6Lang⟩,
           c10Builder, c10FS) :=
  ⟨(build_flags_not_idempotent plainEnv 30 c10Builder c10FS [] ["-g".toList] ["-O".toList]
      "/s/a.c".toList c6Lang c10Data 5).2.1 (by decide),
   (build_flags_not_idempotent plainEnv 30 c10Builder c10FS [] ["-g".toList] ["-O".toList]
      "/s/a.c".toList c6Lang c10Data 5).2.2 rfl rfl (by rfl) rfl rfl (by decide) rfl
      (by decide)⟩

/-! ### C3: dependency resolution on an include cycle -/

/-- One direction of the cycle result: starting from `A`, with `A` and `B`
including each other, the resolver terminates and accumulates `[B, A]` —
`B` first, then `A` itself when the cycle returns to it (the visited set
seeded at that point contains only `B`). -/
theorem get_deps_cycle_one (env : Env) (lang : Language) (fs : FS)
    (A B lA lB : List Char) (fuel : Nat)
    (hAB : A ≠ B)
    (hlinesA : fs.lines A = [lA]) (hlinesB : fs.lines B = [lB])
    (hscanA : lang.scan A lA = some B) (hscanB : lang.scan B lB = some A)
    (hmA : (fs.mtime A).isSome) (hmB : (fs.mtime B).isSome) :
    get_deps env lang fs (fuel + 3) A [] = .ok [B, A] := by
  obtain ⟨ta, hta⟩ := Option.isSome_iff_exists.mp hmA
  obtain ⟨tb, htb⟩ := Option.isSome_iff_exists.mp hmB
  have hBA : B ≠ A := fun hc => hAB hc.symm
  rw [show fuel + 3 = (fuel + 2) + 1 from rfl]
  simp [get_deps, depLines, hlinesA, hlinesB, hscanA, hscanB, hta, htb, hAB, hBA]

/-- C3 corrected: on a two-file include cycle the resolution terminates
(any fuel at least three steps deep returns), but the resulting dependency
set is `{B, A}` when started from `A` and `{A, B}` when started from `B`:
the start file itself is collected when the cycle closes, since the visited
set is seeded only with the dependencies discovered so far. -/
theorem get_deps_cycle_amended (env : Env) (lang : Language) (fs : FS)
    (A B lA lB : List Char) (fuel : Nat)
    (hAB : A ≠ B)
    (hlinesA : fs.lines A = [lA]) (hlinesB : fs.lines B = [lB])
    (hscanA : lang.scan A lA = some B) (hscanB : lang.scan B lB = some A)
    (hmA : (fs.mtime A).isSome) (hmB : (fs.mtime B).isSome) :
    get_deps env lang fs (fuel + 3) A [] = .ok [B, A] ∧
    get_deps env lang fs (fuel + 3) B [] = .ok [A, B] :=
  ⟨get_deps_cycle_one env lang fs A B lA lB fuel hAB hlinesA hlinesB hscanA hscanB hmA hmB,
   get_deps_cycle_one env lang fs B A lB lA fuel (fun hc => hAB hc.symm)
     hlinesB hlinesA hscanB hscanA hmB hmA⟩

/-- The concrete cycle used to refute C3 as stated: `/p/a.c` includes
`/p/b.h` and vice versa. -/
def c3A : List Char := "/p/a.c".toList

def c3B : List Char := "/p/b.h".toList

def c3FS : FS :=
  ⟨fun p => if p = c3A then some 5 else if p = c3B then some 6 else none,
   fun p => if p = c3A then [['x']] else if p = c3B then [['y']] else []⟩

def c3Lang : Language :=
  ⟨[".c".toList],
   fun f l =>
     if f = c3A ∧ l = ['x'] then some c3B
     else if f = c3B ∧ l = ['y'] then some c3A else none,
   ".o".toList⟩

/-- C3 counterexample: resolution from `A` terminates but returns the set
`{B, A}`, not exactly `{B}` as claimed (and `{A, B}`, not `{A}`, from `B`):
the start file is re-collected when the cycle returns to it. -/
theorem get_deps_cycle_counterexample :
    get_deps plainEnv c3Lang c3FS 6 c3A [] = .ok [c3B, c3A] ∧
    get_deps plainEnv c3Lang c3FS 6 c3B [] = .ok [c3A, c3B] ∧
    c3A ≠ c3B := by
  refine ⟨by rfl, by rfl, by decide⟩

theorem get_deps_cycle_amended_witness :
    get_deps plainEnv c3Lang c3FS 7 c3A [] = .ok [c3B, c3A] ∧
    get_deps plainEnv c3Lang c3FS 7 c3B [] = .ok [c3A, c3B] :=
  get_deps_cycle_amended plainEnv c3Lang c3FS c3A c3B ['x'] ['y'] 4
    (by decide) rfl rfl rfl rfl rfl rfl

/-! ### C1: the staleness decision follows the five rules in order -/

/-- The decision rules exactly as the claim states them, in priority order
(first applicable wins), over the observations `_check_file` makes: whether
the object file exists, the recorded `SourceData` (if any), the file's
current mtime, the flattened current flag string, and the current mtimes of
the recorded dependencies.  `some i` means rule `i+1` of the claim applies
first; `none` means the file is fresh. -/
def spec_stale_rule (objExists : Bool) (data : Option SourceData) (time_stamp : Nat)
    (flag_str : List Char) (depTimes : List Nat) : Option (Fin 5) :=
  if objExists = false then some 0
  else
    match data with
    | none => some 1
    | some data =>
        if data.last_write_time < time_stamp then some 2
        else if flag_str ≠ data.flags then some 3
        else if depTimes.any (fun t => data.last_write_time < t) then some 4
        else none

/-- C1: for a source file `build()` examines with its language resolved, no
prior error, and the file and its recorded dependencies present on disk,
`_check_file`'s stale/fresh decision is exactly the first applicable rule
of `spec_stale_rule`: the file is scheduled for rebuild iff some rule
applies, and as a side effect its mtime is set to `now` exactly when the
first applicable rule is rule 5 (the dependency rule). -/
theorem check_file_first_rule (env : Env) (now : Nat) (b : Builder) (fs : FS)
    (file : List Char) (flags : List (List Char)) (lang : Language) (ts : Nat)
    (hlang : get_language b.languages (ext_of file) = some lang)
    (hb : b.error = false)
    (hfile : fs.mtime file = some ts)
    (hdeps : ∀ data, query_source b.database.data file = some data →
        ∀ dep ∈ data.dependencies, (fs.mtime dep).isSome) :
    check_file env now b fs file flags =
      (let rule := spec_stale_rule
          (fs.mtime (b.object_path ++ '/' :: obj_filename_of file lang.object_extension)).isSome
          (query_source b.database.data file) ts (joinSpace flags)
          ((query_source b.database.data file).elim []
            (fun d => d.dependencies.map (fun dep => (fs.mtime dep).getD 0)));
       .ok ((if rule.isSome then some ⟨file, flags, lang⟩ else none), b,
            (if rule = some 4 then fs.setMtime file now else fs))) := by
  simp only [check_file, hlang]
  rw [if_neg (by simp [hb])]
  cases hobj : fs.mtime (b.object_path ++ '/' :: obj_filename_of file lang.object_extension) with
  | none => simp [spec_stale_rule]
  | some tOb =>
      cases hq : query_source b.database.data file with
      | none => simp [hfile, spec_stale_rule]
      | some data =>
          simp only [hfile]
          by_cases hlt : data.last_write_time < ts
          · rw [if_pos hlt]
            simp [spec_stale_rule, hlt]
          · rw [if_neg hlt]
            by_cases hfl : data.flags = joinSpace flags
            · rw [if_neg (by simp [hfl])]
              have hdeps' : ∀ dep ∈ data.dependencies, (fs.mtime dep).isSome := by
                intro dep hdep
                exact hdeps data hq dep hdep
              rw [depScan_total fs file now data.last_write_time data.dependencies hdeps']
              by_cases hany : data.dependencies.any
                  (fun dep => data.last_write_time < (fs.mtime dep).getD 0) = true
              · rw [if_pos hany]
                have hex : ∃ a ∈ data.dependencies,
                    data.last_write_time < (fs.mtime a).getD 0 := by
                  simpa using hany
                simp [spec_stale_rule, hlt, hfl, List.any_map, Function.comp, hex]
              · rw [if_neg hany]
                simp only [Bool.not_eq_true] at hany
                have hnex : ¬ ∃ a ∈ data.dependencies,
                    data.last_write_time < (fs.mtime a).getD 0 := by
                  simpa using hany
                simp [spec_stale_rule, hlt, hfl, List.any_map, Function.comp, hnex]
            · rw [if_pos (fun hc => hfl hc)]
              have : joinSpace flags ≠ data.flags := fun hc => hfl hc.symm
              simp [spec_stale_rule, hlt, this]

/-- Witness scenario for C1: object present, record present, mtimes equal,
flags equal, one recorded dependency strictly newer — rule 5 applies, the
file is scheduled and its mtime bumped to `now`. -/
def c1Dep : List Char := "/s/h.h".toList

def c1Data : SourceData := ⟨[c1Dep], 5, []⟩

def c1DB : DatabaseFileContents := ⟨false, [("/s/a.c".toList, c1Data)], []⟩

def c1FS : FS :=
  ⟨fun p => if p = "/s/a.c".toList then some 5
    else if p = c1Dep then some 9
    else if p = "/o".toList ++ '/' :: obj_filename_of "/s/a.c".toList ".o".toList then some 7
    else none,
   fun _ => []⟩

def c1Builder : Builder :=
  { c6Builder with
      object_path := "/o".toList
      database := ⟨some c1DB, c1DB⟩ }

theorem check_file_first_rule_witness :
    check_file plainEnv 42 c1Builder c1FS "/s/a.c".toList [] =
      .ok (some ⟨"/s/a.c".toList, [], c6Lang⟩, c1Builder,
           c1FS.setMtime "/s/a.c".toList 42) :=
  check_file_first_rule plainEnv 42 c1Builder c1FS "/s/a.c".toList [] c6Lang 5
    rfl rfl rfl
    (by
      intro data hd dep hdep
      have hdata : c1Data = data := Option.some.inj hd
      subst hdata
      simp only [c1Data, List.mem_singleton] at hdep
      subst hdep
      rfl)

/-! ### C2: build() twice in a row -/

/-- The absolute paths of every registered file, in registration order,
as `_check` resolves them. -/
def full_paths (env : Env) (ps : List SourcePath) : List (List Char) :=
  ps.flatMap (fun p => p.files.map (fun f => env.abspath (p.path ++ '/' :: f)))

/-- The facts about a source file `F` (checked under flag list `σ`) that
make `_check_file` classify it fresh, apart from the dependency rule: its
language resolves, its object file exists, and the database records it with
the current flag string and an mtime at least the file's current one. -/
def FreshFact (langs : List Language) (objectPath : List Char)
    (d : DatabaseFileContents) (fs : FS) (F : List Char) (σ : List (List Char)) : Prop :=
  ∃ lang, get_language langs (ext_of F) = some lang ∧
    (fs.mtime (objectPath ++ '/' :: obj_filename_of F lang.object_extension)).isSome ∧
    ∃ data ts, query_source d F = some data ∧ data.flags = joinSpace σ ∧
      fs.mtime F = some ts ∧ ts ≤ data.last_write_time

/-- The concrete project refuting C2 as stated: one source file `/s/a.c`
whose single include `/s/b.h` is newer than the source itself. -/
def c2Lang : Language :=
  ⟨[".c".toList],
   fun _ l => if l = ['i'] then some "/s/b.h".toList else none,
   ".o".toList⟩

def c2FS : FS :=
  ⟨fun p => if p = "/s/a.c".toList then some 5
    else if p = "/s/b.h".toList then some 10 else none,
   fun p => if p = "/s/a.c".toList then [['i']] else []⟩

def c2Builder : Builder :=
  { project_name := "app".toList
    build_type := "debug".toList
    languages := [c2Lang]
    source_paths := [⟨"/s".toList, ["a.c".toList], []⟩]
    linkerNone := false
    output_path := "/b/debug".toList
    object_path := "/o".toList
    database := ⟨none, DatabaseFileContents.empty⟩
    should_link := false
    error := false
    cores := 1 }

/-- C2 counterexample: from a fresh project state whose header `/s/b.h` is
newer than its including source `/s/a.c`, the first `build()` compiles the
file (rule 1: no object yet) and records the source's old mtime; with no
filesystem change whatsoever in between, a second `build()` compiles it
AGAIN — rule 5 sees the recorded dependency newer than the recorded source
mtime — so the second call does not compile zero files (and it rewrites the
database with a bumped mtime).  Only a third call reaches the fixpoint. -/
theorem build_twice_counterexample :
    ((build plainEnv 20 c2Builder c2FS []).map (fun x => x.2.2.2)
        = .ok ["/s/a.c".toList]) ∧
    ((Except.bind (build plainEnv 20 c2Builder c2FS [])
        (fun x => build plainEnv 30 x.2.1 x.2.2.1 [])).map (fun x => x.2.2.2)
        = .ok ["/s/a.c".toList]) :=
  ⟨rfl, rfl⟩

theorem build_file_of_error (env : Env) (now : Nat) (b : Builder) (fs : FS)
    (sf : SourceFile) (hb : b.error = true) :
    build_file env now b fs sf = .ok (b, fs, false) := by
  simp [build_file, hb]

theorem build_files_of_error (env : Env) (now : Nat) :
    ∀ (L : List SourceFile) (b : Builder) (fs : FS), b.error = true →
      build_files env now b fs L = .ok (b, fs, []) := by
  intro L
  induction L with
  | nil => intro b fs _; rfl
  | cons sf rest ih =>
      intro b fs hb
      simp [build_files, build_file_of_error env now b fs sf hb, ih b fs hb]

theorem map_append_nil_flags (ps : List SourcePath) :
    ps.map (fun p => { p with flags := p.flags ++ [] }) = ps := by
  induction ps with
  | nil => rfl
  | cons p rest ih => simp [source_path_append_nil p, ih]

/-- A no-flags `build()` on an errored builder whose database is already
saved is a perfect no-op returning failure. -/
theorem build_of_error_saved (env : Env) (now : Nat) (b : Builder) (fs : FS)
    (hb : b.error = true) (hsave : b.database.store = some b.database.data) :
    build env now b fs [] = .ok (true, b, fs, []) := by
  have h := (error_flag_sticky env now b fs [] hb).1
  rw [BuildDatabase.load_of_saved b.database hsave,
      BuildDatabase.save_of_saved b.database hsave, map_append_nil_flags] at h
  exact h

theorem onlyErr_fields {b b1 : Builder} (h : b1 = b ∨ b1 = { b with error := true }) :
    b1.languages = b.languages ∧ b1.object_path = b.object_path ∧
    b1.database = b.database ∧ b1.source_paths = b.source_paths ∧
    b1.cores = b.cores ∧ b1.build_type = b.build_type := by
  rcases h with h | h <;> subst h <;> exact ⟨rfl, rfl, rfl, rfl, rfl, rfl⟩

theorem onlyErr_trans {b b1 b2 : Builder}
    (h1 : b1 = b ∨ b1 = { b with error := true })
    (h2 : b2 = b1 ∨ b2 = { b1 with error := true }) :
    b2 = b ∨ b2 = { b with error := true } := by
  rcases h1 with h1 | h1 <;> rcases h2 with h2 | h2 <;> subst h1 <;> subst h2
  · exact Or.inl rfl
  · exact Or.inr rfl
  · exact Or.inr rfl
  · exact Or.inr rfl

theorem onlyErr_error_back {b b1 : Builder}
    (h : b1 = b ∨ b1 = { b with error := true }) (he : b1.error = false) :
    b.error = false := by
  rcases h with h | h
  · rwa [h] at he
  · rw [h] at he
    simp at he

theorem check_file_some_elim (env : Env) (now : Nat) (b : Builder) (fs : FS)
    (file : List Char) (flags : List (List Char)) (sf : SourceFile)
    (b' : Builder) (fs' : FS)
    (h : check_file env now b fs file flags = .ok (some sf, b', fs')) :
    b' = b ∧ sf.path = file ∧ sf.flags = flags ∧
    get_language b.languages (ext_of file) = some sf.lang ∧
    (fs' = fs ∨ fs' = fs.setMtime file now) ∧ b.error = false := by
  rcases check_file_cases env now b fs file flags (some sf) b' fs' h with
    ⟨_, hr, _, _⟩ | ⟨lang, hlang, hcase⟩
  · exact absurd hr (by simp)
  · rcases hcase with ⟨_, hr, _, _⟩ | ⟨hbe, hb', hcase⟩
    · exact absurd hr (by simp)
    · rcases hcase with ⟨hr, hfs⟩ | ⟨hr, _⟩
      · have hsf : sf = ⟨file, flags, lang⟩ := Option.some.inj hr
        refine ⟨hb', ?_, ?_, ?_, hfs, hbe⟩
        · rw [hsf]
        · rw [hsf]
        · rw [hsf]
          exact hlang
      · exact absurd hr (by simp)

/-- Phase-A characterization of one source group: a non-raising scan over
pairwise-distinct files leaves the builder intact up to the error flag,
changes only the checked files' mtimes (to `now`), schedules a subsequence
of the group with the group's flags and resolved languages, and — when no
error was recorded — classifies every file either as scheduled or as fresh,
the fresh case carrying the facts rules 1-4 certified against the final
filesystem. -/
theorem check_files_charn (env : Env) (now : Nat) (P : List Char) (σ : List (List Char)) :
    ∀ (files : List (List Char)) (b : Builder) (fs : FS) (L : List SourceFile)
      (b' : Builder) (fs' : FS),
      check_files env now b fs P σ files = .ok (L, b', fs') →
      (files.map (fun f => env.abspath (P ++ '/' :: f))).Nodup →
      (b' = b ∨ b' = { b with error := true }) ∧
      (∀ q, fs'.mtime q = fs.mtime q ∨
        (fs'.mtime q = some now ∧ q ∈ files.map (fun f => env.abspath (P ++ '/' :: f)))) ∧
      (L.map SourceFile.path).Sublist (files.map (fun f => env.abspath (P ++ '/' :: f))) ∧
      (∀ sf ∈ L, sf.flags = σ ∧ get_language b.languages (ext_of sf.path) = some sf.lang) ∧
      (b'.error = false →
        ∀ f ∈ files,
          (∃ sf ∈ L, sf.path = env.abspath (P ++ '/' :: f) ∧ sf.flags = σ ∧
            get_language b.languages (ext_of sf.path) = some sf.lang) ∨
          ((env.abspath (P ++ '/' :: f)) ∉ L.map SourceFile.path ∧
            FreshFact b.languages b.object_path b.database.data fs'
              (env.abspath (P ++ '/' :: f)) σ)) := by
  intro files
  induction files with
  | nil =>
      intro b fs L b' fs' h _
      simp only [check_files, Except.ok.injEq, Prod.mk.injEq] at h
      obtain ⟨hL, hb', hfs'⟩ := h
      subst hL; subst hb'; subst hfs'
      refine ⟨Or.inl rfl, fun q => Or.inl rfl, by simp, by simp, ?_⟩
      intro _ f hf
      exact absurd hf (by simp)
  | cons f rest ih =>
      intro b fs L b' fs' h hnd
      simp only [check_files] at h
      cases hcf : check_file env now b fs (env.abspath (P ++ '/' :: f)) σ with
      | error e => simp only [hcf] at h; exact Except.noConfusion h
      | ok res1 =>
          obtain ⟨osf, b1, fs1⟩ := res1
          simp only [hcf] at h
          cases hrest : check_files env now b1 fs1 P σ rest with
          | error e => simp only [hrest] at h; exact Except.noConfusion h
          | ok res2 =>
              obtain ⟨l, b2, fs2⟩ := res2
              simp only [hrest, Except.ok.injEq, Prod.mk.injEq] at h
              obtain ⟨hL, hb', hfs'⟩ := h
              subst hb'; subst hfs'
              simp only [List.map_cons, List.nodup_cons] at hnd
              obtain ⟨hFnotin, hndrest⟩ := hnd
              -- shape of the head step
              have hshape1 : (b1 = b ∨ b1 = { b with error := true }) ∧
                  (fs1 = fs ∨ fs1 = fs.setMtime (env.abspath (P ++ '/' :: f)) now) := by
                rcases check_file_cases env now b fs _ σ osf b1 fs1 hcf with
                  ⟨_, _, hb1, hfs1⟩ | ⟨lang, _, hcase⟩
                · exact ⟨Or.inr hb1, Or.inl hfs1⟩
                · rcases hcase with ⟨_, _, hb1, hfs1⟩ | ⟨_, hb1, hcase⟩
                  · exact ⟨Or.inl hb1, Or.inl hfs1⟩
                  · rcases hcase with ⟨_, hfs1⟩ | ⟨_, hfs1, _⟩
                    · exact ⟨Or.inl hb1, hfs1⟩
                    · exact ⟨Or.inl hb1, Or.inl hfs1⟩
              obtain ⟨hb1s, hfs1s⟩ := hshape1
              obtain ⟨hf1, hf2, hf3, hf4, hf5, hf6⟩ := onlyErr_fields hb1s
              have ihr := ih b1 fs1 l b2 fs2 hrest hndrest
              obtain ⟨ihsh, ihfs, ihsub, ihmem, ihcls⟩ := ihr
              refine ⟨onlyErr_trans hb1s ihsh, ?_, ?_, ?_, ?_⟩
              -- filesystem evolution
              · intro q
                rcases ihfs q with hq | ⟨hq, hqm⟩
                · rcases hfs1s with hfs1s | hfs1s
                  · rw [hq, hfs1s]
                    exact Or.inl rfl
                  · by_cases hqf : q = env.abspath (P ++ '/' :: f)
                    · subst hqf
                      rw [hq, hfs1s, FS.setMtime_self]
                      exact Or.inr ⟨rfl, by simp⟩
                    · rw [hq, hfs1s, FS.setMtime_ne fs _ q now hqf]
                      exact Or.inl rfl
                · exact Or.inr ⟨hq, by simp [hqm]⟩
              -- the schedule is a subsequence
              · subst hL
                cases osf with
                | none =>
                    have hmp : ((Option.toList (none : Option SourceFile) ++ l).map
                        SourceFile.path) = l.map SourceFile.path := by simp
                    rw [hmp]
                    exact List.Sublist.cons _ ihsub
                | some sf =>
                    obtain ⟨_, hpath, _, _, _, _⟩ :=
                      check_file_some_elim env now b fs _ σ sf b1 fs1 hcf
                    have hmp : (((some sf).toList ++ l).map SourceFile.path)
                        = sf.path :: l.map SourceFile.path := by simp
                    rw [hmp, hpath]
                    exact List.Sublist.cons₂ _ ihsub
              -- each scheduled descriptor carries the group flags and language
              · subst hL
                intro sf hsf
                rcases List.mem_append.mp hsf with hsf | hsf
                · cases osf with
                  | none => exact absurd hsf (by simp)
                  | some sf0 =>
                      obtain ⟨_, hpath, hflags, hlang, _, _⟩ :=
                        check_file_some_elim env now b fs _ σ sf0 b1 fs1 hcf
                      have : sf = sf0 := by simpa using hsf
                      subst this
                      exact ⟨hflags, by rw [hpath]; exact hlang⟩
                · have := ihmem sf hsf
                  rw [hf1] at this
                  exact this
              -- classification, assuming no error at the end
              · intro hb2e g hg
                subst hL
                have hb1e : b1.error = false := onlyErr_error_back ihsh hb2e
                rcases List.mem_cons.mp hg with hg | hg
                · -- the head file
                  rw [hg]
                  cases osf with
                  | some sf =>
                      obtain ⟨_, hpath, hflags, hlang, _, _⟩ :=
                        check_file_some_elim env now b fs _ σ sf b1 fs1 hcf
                      exact Or.inl ⟨sf, by simp, hpath, hflags, by rw [hpath]; exact hlang⟩
                  | none =>
                      rcases check_file_cases env now b fs _ σ none b1 fs1 hcf with
                        ⟨_, _, hb1, _⟩ | ⟨lang, hlang, hcase⟩
                      · rw [hb1] at hb1e
                        simp at hb1e
                      · rcases hcase with ⟨hberr, _, hb1, _⟩ | ⟨hbe, hb1, hcase⟩
                        · rw [hb1] at hb1e
                          rw [hb1e] at hberr
                          exact absurd hberr (by simp)
                        · rcases hcase with ⟨hr, _⟩ | ⟨_, hfs1, hobj, data, ts, hq, hm, hlt, hfl⟩
                          · exact absurd hr (by simp)
                          · refine Or.inr ⟨?_, ?_⟩
                            · intro hmem
                              simp only [List.map_append] at hmem
                              rcases List.mem_append.mp hmem with hmem | hmem
                              · simp at hmem
                              · exact hFnotin (List.Sublist.mem hmem ihsub)
                            · -- upgrade the fresh facts from `fs` to `fs2`
                              rw [hfs1] at ihfs
                              have hFq : fs2.mtime (env.abspath (P ++ '/' :: f))
                                  = fs.mtime (env.abspath (P ++ '/' :: f)) := by
                                rcases ihfs (env.abspath (P ++ '/' :: f)) with hq2 | ⟨_, hq2⟩
                                · exact hq2
                                · exact absurd hq2 hFnotin
                              have hobj2 : (fs2.mtime (b.object_path ++ '/' ::
                                  obj_filename_of (env.abspath (P ++ '/' :: f))
                                    lang.object_extension)).isSome := by
                                rcases ihfs (b.object_path ++ '/' ::
                                    obj_filename_of (env.abspath (P ++ '/' :: f))
                                      lang.object_extension) with hq2 | ⟨hq2, _⟩
                                · rw [hq2]; exact hobj
                                · rw [hq2]; rfl
                              exact ⟨lang, hlang, hobj2, data, ts, hq, hfl,
                                by rw [hFq]; exact hm, by omega⟩
                · -- a file of the rest of the group
                  rcases ihcls hb2e g hg with hstale | ⟨hnot, hfresh⟩
                  · rcases hstale with ⟨sf, hsf, hp, hflags, hlang⟩
                    rw [hf1] at hlang
                    exact Or.inl ⟨sf, by simp [hsf], hp, hflags, hlang⟩
                  · refine Or.inr ⟨?_, ?_⟩
                    · intro hmem
                      simp only [List.map_append] at hmem
                      rcases List.mem_append.mp hmem with hmem | hmem
                      · cases osf with
                        | none => simp at hmem
                        | some sf0 =>
                            obtain ⟨_, hpath, _, _, _, _⟩ :=
                              check_file_some_elim env now b fs _ σ sf0 b1 fs1 hcf
                            simp only [Option.toList_some, List.map_cons, List.map_nil,
                              List.mem_singleton] at hmem
                            apply hFnotin
                            rw [← hpath, ← hmem]
                            exact List.mem_map_of_mem _ hg
                      · exact hnot hmem
                    · rw [← hf1, ← hf2, ← hf3]
                      exact hfresh

/-- Phase-A characterization across all source groups. -/
theorem check_paths_charn (env : Env) (now : Nat) (flags : List (List Char)) :
    ∀ (ps : List SourcePath) (b : Builder) (fs : FS) (L : List SourceFile)
      (ps' : List SourcePath) (b' : Builder) (fs' : FS),
      check_paths env now b fs flags ps = .ok (L, ps', b', fs') →
      (full_paths env ps).Nodup →
      (b' = b ∨ b' = { b with error := true }) ∧
      (∀ q, fs'.mtime q = fs.mtime q ∨ (fs'.mtime q = some now ∧ q ∈ full_paths env ps)) ∧
      (L.map SourceFile.path).Sublist (full_paths env ps) ∧
      (∀ sf ∈ L, get_language b.languages (ext_of sf.path) = some sf.lang ∧
          ∃ p ∈ ps, sf.flags = p.flags ++ flags) ∧
      (b'.error = false →
        ∀ p ∈ ps, ∀ f ∈ p.files,
          (∃ sf ∈ L, sf.path = env.abspath (p.path ++ '/' :: f) ∧
            sf.flags = p.flags ++ flags ∧
            get_language b.languages (ext_of sf.path) = some sf.lang) ∨
          (env.abspath (p.path ++ '/' :: f) ∉ L.map SourceFile.path ∧
            FreshFact b.languages b.object_path b.database.data fs'
              (env.abspath (p.path ++ '/' :: f)) (p.flags ++ flags))) := by
  intro ps
  induction ps with
  | nil =>
      intro b fs L ps' b' fs' h _
      simp only [check_paths, Except.ok.injEq, Prod.mk.injEq] at h
      obtain ⟨hL, _, hb', hfs'⟩ := h
      subst hL; subst hb'; subst hfs'
      refine ⟨Or.inl rfl, fun q => Or.inl rfl, by simp [full_paths], by simp, ?_⟩
      intro _ p hp
      exact absurd hp (by simp)
  | cons p rest ih =>
      intro b fs L ps' b' fs' h hnd
      simp only [check_paths] at h
      cases hcf : check_files env now b fs p.path (p.flags ++ flags) p.files with
      | error e => simp only [hcf] at h; exact Except.noConfusion h
      | ok res1 =>
          obtain ⟨sfs, b1, fs1⟩ := res1
          simp only [hcf] at h
          cases hcp : check_paths env now b1 fs1 flags rest with
          | error e => simp only [hcp] at h; exact Except.noConfusion h
          | ok res2 =>
              obtain ⟨l, ps'', b2, fs2⟩ := res2
              simp only [hcp, Except.ok.injEq, Prod.mk.injEq] at h
              obtain ⟨hL, _, hb', hfs'⟩ := h
              subst hb'; subst hfs'
              have hndsplit : (p.files.map (fun f => env.abspath (p.path ++ '/' :: f))).Nodup ∧
                  (full_paths env rest).Nodup ∧
                  (p.files.map (fun f => env.abspath (p.path ++ '/' :: f))).Disjoint
                    (full_paths env rest) := by
                have : full_paths env (p :: rest)
                    = p.files.map (fun f => env.abspath (p.path ++ '/' :: f))
                      ++ full_paths env rest := by
                  simp [full_paths]
                rw [this] at hnd
                exact List.nodup_append.mp hnd
              obtain ⟨hnd1, hnd2, hdisj12⟩ := hndsplit
              obtain ⟨gsh, gfs, gsub, gmem, gcls⟩ :=
                check_files_charn env now p.path (p.flags ++ flags) p.files b fs sfs b1 fs1
                  hcf hnd1
              obtain ⟨gf1, gf2, gf3, gf4, gf5, gf6⟩ := onlyErr_fields gsh
              obtain ⟨ish, ifs, isub, imem, icls⟩ := ih b1 fs1 l ps'' b2 fs2 hcp hnd2
              have hfull : full_paths env (p :: rest)
                  = p.files.map (fun f => env.abspath (p.path ++ '/' :: f))
                    ++ full_paths env rest := by
                simp [full_paths]
              refine ⟨onlyErr_trans gsh ish, ?_, ?_, ?_, ?_⟩
              · intro q
                rcases ifs q with hq | ⟨hq, hqm⟩
                · rcases gfs q with hq2 | ⟨hq2, hq2m⟩
                  · rw [hq, hq2]
                    exact Or.inl rfl
                  · rw [hq, hfull]
                    exact Or.inr ⟨hq2, List.mem_append.mpr (Or.inl hq2m)⟩
                · rw [hfull]
                  exact Or.inr ⟨hq, List.mem_append.mpr (Or.inr hqm)⟩
              · subst hL
                rw [hfull, List.map_append]
                exact List.Sublist.append gsub isub
              · subst hL
                intro sf hsf
                rcases List.mem_append.mp hsf with hsf | hsf
                · obtain ⟨hflags, hlang⟩ := gmem sf hsf
                  exact ⟨hlang, p, by simp, hflags⟩
                · obtain ⟨hlang, q, hq, hflags⟩ := imem sf hsf
                  rw [gf1] at hlang
                  exact ⟨hlang, q, by simp [hq], hflags⟩
              · intro hb2e pp hpp f hf
                subst hL
                have hb1e : b1.error = false := onlyErr_error_back ish hb2e
                rcases List.mem_cons.mp hpp with hpp | hpp
                · -- a file of the head group
                  subst hpp
                  rcases gcls hb1e f hf with ⟨sf, hsf, hpath, hflags, hlang⟩ | ⟨hnot, hfresh⟩
                  · exact Or.inl ⟨sf, List.mem_append.mpr (Or.inl hsf), hpath, hflags, hlang⟩
                  · have hFrest : env.abspath (pp.path ++ '/' :: f) ∉ full_paths env rest :=
                      hdisj12 (List.mem_map_of_mem _ hf)
                    refine Or.inr ⟨?_, ?_⟩
                    · intro hmem
                      rw [List.map_append] at hmem
                      rcases List.mem_append.mp hmem with hmem | hmem
                      · exact hnot hmem
                      · exact hFrest (List.Sublist.mem hmem isub)
                    · -- upgrade FreshFact from fs1 to fs2
                      obtain ⟨lang, hlang, hobj, data, ts, hq, hfl, hm, hle⟩ := hfresh
                      have hFq : fs2.mtime (env.abspath (pp.path ++ '/' :: f))
                          = fs1.mtime (env.abspath (pp.path ++ '/' :: f)) := by
                        rcases ifs (env.abspath (pp.path ++ '/' :: f)) with hq2 | ⟨_, hq2⟩
                        · exact hq2
                        · exact absurd hq2 hFrest
                      have hobj2 : (fs2.mtime (b.object_path ++ '/' ::
                          obj_filename_of (env.abspath (pp.path ++ '/' :: f))
                            lang.object_extension)).isSome := by
                        rcases ifs (b.object_path ++ '/' ::
                            obj_filename_of (env.abspath (pp.path ++ '/' :: f))
                              lang.object_extension) with hq2 | ⟨hq2, _⟩
                        · rw [hq2]; exact hobj
                        · rw [hq2]; rfl
                      exact ⟨lang, hlang, hobj2, data, ts, hq, hfl, by rw [hFq]; exact hm, hle⟩
                · -- a file of a later group
                  rcases icls hb2e pp hpp f hf with ⟨sf, hsf, hpath, hflags, hlang⟩ | ⟨hnot, hfresh⟩
                  · rw [gf1] at hlang
                    exact Or.inl ⟨sf, List.mem_append.mpr (Or.inr hsf), hpath, hflags, hlang⟩
                  · have hFrest : env.abspath (pp.path ++ '/' :: f) ∈ full_paths env rest := by
                      simp only [full_paths, List.mem_flatMap]
                      exact ⟨pp, hpp, List.mem_map_of_mem _ hf⟩
                    refine Or.inr ⟨?_, ?_⟩
                    · intro hmem
                      rw [List.map_append] at hmem
                      rcases List.mem_append.mp hmem with hmem | hmem
                      · exact (hdisj12 (List.Sublist.mem hmem gsub)) hFrest
                      · exact hnot hmem
                    · rw [← gf1, ← gf2, ← gf3]
                      exact hfresh

theorem query_source_add_object (d : DatabaseFileContents) (o bt F : List Char) :
    query_source (add_object d o bt) F = query_source d F := rfl

theorem query_source_update_self (d : DatabaseFileContents) (F : List Char)
    (data : SourceData) :
    query_source (update_source d F data) F = some data :=
  lookupA_updateA_self d.sources F data

theorem query_source_update_ne (d : DatabaseFileContents) (F G : List Char)
    (data : SourceData) (h : G ≠ F) :
    query_source (update_source d F data) G = query_source d G :=
  lookupA_updateA_ne d.sources G F data h

/-- A successful `_build_file` step preserves the freshness certificate of
any OTHER file whose path is not the created object's path. -/
theorem build_file_fresh_preserve (env : Env) (now : Nat) (b : Builder) (fs : FS)
    (sf : SourceFile) (b' : Builder) (fs' : FS) (inv : Bool) (F : List Char)
    (σ : List (List Char))
    (h : build_file env now b fs sf = .ok (b', fs', inv))
    (hF : FreshFact b.languages b.object_path b.database.data fs F σ)
    (hne : F ≠ sf.path)
    (hno : F ≠ b.object_path ++ '/' :: obj_filename_of sf.path sf.lang.object_extension) :
    FreshFact b.languages b.object_path b'.database.data fs' F σ := by
  simp only [build_file] at h
  by_cases hbe : b.error = true
  · rw [if_pos hbe] at h
    simp only [Except.ok.injEq, Prod.mk.injEq] at h
    obtain ⟨h1, h2, _⟩ := h
    rw [← h1, ← h2]
    exact hF
  · rw [if_neg hbe] at h
    by_cases hcf : env.compileFails b.object_path
        (obj_filename_of sf.path sf.lang.object_extension) sf.path b.build_type sf.flags = true
    · rw [if_pos hcf] at h
      simp only [Except.ok.injEq, Prod.mk.injEq] at h
      obtain ⟨h1, h2, _⟩ := h
      rw [← h1, ← h2]
      exact hF
    · rw [if_neg hcf] at h
      cases hgd : get_deps env sf.lang
          (fs.setMtime (b.object_path ++ '/' :: obj_filename_of sf.path sf.lang.object_extension) now)
          env.fuel sf.path [] with
      | error e => simp only [hgd] at h; exact Except.noConfusion h
      | ok deps =>
          simp only [hgd] at h
          cases hw : (fs.setMtime
              (b.object_path ++ '/' :: obj_filename_of sf.path sf.lang.object_extension)
              now).mtime sf.path with
          | none => simp only [hw] at h; exact Except.noConfusion h
          | some w =>
              simp only [hw, Except.ok.injEq, Prod.mk.injEq] at h
              obtain ⟨h1, h2, _⟩ := h
              obtain ⟨lang, hlang, hobj, data, ts, hq, hfl, hm, hle⟩ := hF
              refine ⟨lang, hlang, ?_, data, ts, ?_, hfl, ?_, hle⟩
              · rw [← h2]
                exact FS.setMtime_isSome fs _ _ now hobj
              · rw [← h1]
                show query_source (add_object (update_source b.database.data sf.path
                    ⟨deps, w, joinSpace sf.flags⟩)
                    (obj_filename_of sf.path sf.lang.object_extension) b.build_type) F = some data
                rw [query_source_add_object, query_source_update_ne _ _ _ _ hne]
                exact hq
              · rw [← h2, FS.setMtime_ne fs _ F now hno]
                exact hm

/-- A successful `_build_file` step establishes the freshness certificate
of its own file: the object now exists, and the database records the file's
current mtime and flag string. -/
theorem build_file_fresh_establish (env : Env) (now : Nat) (b : Builder) (fs : FS)
    (sf : SourceFile) (b' : Builder) (fs' : FS) (inv : Bool)
    (h : build_file env now b fs sf = .ok (b', fs', inv))
    (hb : b.error = false) (hb' : b'.error = false)
    (hlang : get_language b.languages (ext_of sf.path) = some sf.lang) :
    FreshFact b.languages b.object_path b'.database.data fs' sf.path sf.flags := by
  simp only [build_file] at h
  rw [if_neg (by simp [hb])] at h
  by_cases hcf : env.compileFails b.object_path
      (obj_filename_of sf.path sf.lang.object_extension) sf.path b.build_type sf.flags = true
  · rw [if_pos hcf] at h
    simp only [Except.ok.injEq, Prod.mk.injEq] at h
    obtain ⟨h1, _, _⟩ := h
    rw [← h1] at hb'
    simp at hb'
  · rw [if_neg hcf] at h
    cases hgd : get_deps env sf.lang
        (fs.setMtime (b.object_path ++ '/' :: obj_filename_of sf.path sf.lang.object_extension) now)
        env.fuel sf.path [] with
    | error e => simp only [hgd] at h; exact Except.noConfusion h
    | ok deps =>
        simp only [hgd] at h
        cases hw : (fs.setMtime
            (b.object_path ++ '/' :: obj_filename_of sf.path sf.lang.object_extension)
            now).mtime sf.path with
        | none => simp only [hw] at h; exact Except.noConfusion h
        | some w =>
            simp only [hw, Except.ok.injEq, Prod.mk.injEq] at h
            obtain ⟨h1, h2, _⟩ := h
            refine ⟨sf.lang, hlang, ?_, ⟨deps, w, joinSpace sf.flags⟩, w, ?_, rfl, ?_, le_refl w⟩
            · rw [← h2, FS.setMtime_self]
              rfl
            · rw [← h1]
              show query_source (add_object (update_source b.database.data sf.path
                  ⟨deps, w, joinSpace sf.flags⟩)
                  (obj_filename_of sf.path sf.lang.object_extension) b.build_type) sf.path
                = some ⟨deps, w, joinSpace sf.flags⟩
              rw [query_source_add_object, query_source_update_self]
            · rw [← h2]
              exact hw

/-- Phase-B characterization: running the compile jobs preserves the
freshness certificates of files outside the schedule (whose paths collide
with no scheduled object) and establishes them for every scheduled file,
provided no error occurred. -/
theorem build_files_charn (env : Env) (now : Nat) :
    ∀ (L : List SourceFile) (b : Builder) (fs : FS) (b' : Builder) (fs' : FS)
      (c : List (List Char)),
      build_files env now b fs L = .ok (b', fs', c) →
      b'.error = false →
      (L.map SourceFile.path).Nodup →
      (∀ sf ∈ L, ∀ sf' ∈ L, sf.path ≠
          b.object_path ++ '/' :: obj_filename_of sf'.path sf'.lang.object_extension) →
      (∀ F σ, FreshFact b.languages b.object_path b.database.data fs F σ →
          F ∉ L.map SourceFile.path →
          (∀ sf ∈ L, F ≠ b.object_path ++ '/' :: obj_filename_of sf.path sf.lang.object_extension) →
          FreshFact b.languages b.object_path b'.database.data fs' F σ) ∧
      (∀ sf ∈ L, get_language b.languages (ext_of sf.path) = some sf.lang →
          FreshFact b.languages b.object_path b'.database.data fs' sf.path sf.flags) := by
  intro L
  induction L with
  | nil =>
      intro b fs b' fs' c h _ _ _
      simp only [build_files, Except.ok.injEq, Prod.mk.injEq] at h
      obtain ⟨h1, h2, _⟩ := h
      subst h1; subst h2
      exact ⟨fun F σ hF _ _ => hF, fun sf hsf => absurd hsf (by simp)⟩
  | cons sf rest ih =>
      intro b fs b' fs' c h hb' hnd hdL
      simp only [build_files] at h
      cases hbf : build_file env now b fs sf with
      | error e => simp only [hbf] at h; exact Except.noConfusion h
      | ok res =>
          obtain ⟨b1, fs1, inv⟩ := res
          simp only [hbf] at h
          cases hbfs : build_files env now b1 fs1 rest with
          | error e => simp only [hbfs] at h; exact Except.noConfusion h
          | ok res2 =>
              obtain ⟨b2, fs2, l⟩ := res2
              simp only [hbfs, Except.ok.injEq, Prod.mk.injEq] at h
              obtain ⟨h1, h2, _⟩ := h
              subst h1; subst h2
              -- no error anywhere along the way
              have hb1e : b1.error = false := by
                by_cases hx : b1.error = true
                · rw [build_files_of_error env now rest b1 fs1 hx] at hbfs
                  simp only [Except.ok.injEq, Prod.mk.injEq] at hbfs
                  rw [hbfs.1] at hx
                  rw [hb'] at hx
                  exact absurd hx (by simp)
                · simpa using hx
              have hbe : b.error = false := by
                by_cases hx : b.error = true
                · rw [build_file_of_error env now b fs sf hx] at hbf
                  simp only [Except.ok.injEq, Prod.mk.injEq] at hbf
                  rw [hbf.1] at hx
                  rw [hb1e] at hx
                  exact absurd hx (by simp)
                · simpa using hx
              obtain ⟨ff1, ff2, ff3, ff4, ff5, ff6⟩ :=
                build_file_fields env now b fs sf b1 fs1 inv hbf
              simp only [List.map_cons, List.nodup_cons] at hnd
              obtain ⟨hsfnotin, hndrest⟩ := hnd
              have hdLrest : ∀ sf' ∈ rest, ∀ sf'' ∈ rest, sf'.path ≠
                  b1.object_path ++ '/' :: obj_filename_of sf''.path sf''.lang.object_extension := by
                intro sf' hsf' sf'' hsf''
                rw [ff3]
                exact hdL sf' (by simp [hsf']) sf'' (by simp [hsf''])
              obtain ⟨ihpres, ihest⟩ := ih b1 fs1 b2 fs2 l hbfs hb' hndrest hdLrest
              constructor
              · intro F σ hF hFnot hFobj
                have hFne : F ≠ sf.path := by
                  intro hc
                  exact hFnot (by simp [hc])
                have hstep := build_file_fresh_preserve env now b fs sf b1 fs1 inv F σ
                  hbf hF hFne (hFobj sf (by simp))
                rw [← ff2, ← ff3] at hstep
                have hres := ihpres F σ hstep
                  (fun hc => hFnot (by simp [hc]))
                  (fun sf' hsf' => by
                    rw [ff3]
                    exact hFobj sf' (by simp [hsf']))
                rw [ff2, ff3] at hres
                exact hres
              · intro sf0 hsf0 hlang0
                rcases List.mem_cons.mp hsf0 with hsf0 | hsf0
                · rw [hsf0] at hlang0 ⊢
                  have hstep := build_file_fresh_establish env now b fs sf b1 fs1 inv
                    hbf hbe hb1e hlang0
                  rw [← ff2, ← ff3] at hstep
                  have hres := ihpres sf.path sf.flags hstep hsfnotin
                    (fun sf' hsf' => by
                      rw [ff3]
                      exact hdL sf (by simp) sf' (by simp [hsf']))
                  rw [ff2, ff3] at hres
                  exact hres
                · have hres := ihest sf0 hsf0 (by rw [← ff2] at hlang0; exact hlang0)
                  rw [ff2, ff3] at hres
                  exact hres

/-- A file carrying a freshness certificate whose recorded dependencies all
exist and are no newer than the recorded mtime is classified fresh, with no
side effect. -/
theorem check_file_of_fresh (env : Env) (now : Nat) (b : Builder) (fs : FS)
    (file : List Char) (flags : List (List Char))
    (hb : b.error = false)
    (hF : FreshFact b.languages b.object_path b.database.data fs file flags)
    (hdeps : ∀ data, query_source b.database.data file = some data →
        ∀ dep ∈ data.dependencies, ∃ u, fs.mtime dep = some u ∧ u ≤ data.last_write_time) :
    check_file env now b fs file flags = .ok (none, b, fs) := by
  obtain ⟨lang, hlang, hobj, data, ts, hq, hfl, hm, hle⟩ := hF
  obtain ⟨tOb, htOb⟩ := Option.isSome_iff_exists.mp hobj
  have hexist : ∀ dep ∈ data.dependencies, (fs.mtime dep).isSome := by
    intro dep hdep
    obtain ⟨u, hu, _⟩ := hdeps data hq dep hdep
    rw [hu]
    rfl
  have hany : data.dependencies.any
      (fun dep => data.last_write_time < (fs.mtime dep).getD 0) = false := by
    rw [List.any_eq_false]
    intro dep hdep
    obtain ⟨u, hu, hul⟩ := hdeps data hq dep hdep
    rw [hu]
    simp only [Option.getD_some, decide_eq_true_eq]
    omega
  have hscan : depScan fs file now data.last_write_time data.dependencies
      = .ok (false, fs) := by
    rw [depScan_total fs file now data.last_write_time data.dependencies hexist, hany]
    rfl
  simp only [check_file, hlang, htOb, hq, hm, hscan]
  rw [if_neg (by simp [hb]), if_neg (by omega : ¬ data.last_write_time < ts),
      if_neg (by simp [hfl])]

theorem check_files_of_fresh (env : Env) (now : Nat) (P : List Char)
    (σ : List (List Char)) :
    ∀ (files : List (List Char)) (b : Builder) (fs : FS),
      b.error = false →
      (∀ f ∈ files, FreshFact b.languages b.object_path b.database.data fs
          (env.abspath (P ++ '/' :: f)) σ) →
      (∀ f ∈ files, ∀ data,
          query_source b.database.data (env.abspath (P ++ '/' :: f)) = some data →
          ∀ dep ∈ data.dependencies, ∃ u, fs.mtime dep = some u ∧ u ≤ data.last_write_time) →
      check_files env now b fs P σ files = .ok ([], b, fs) := by
  intro files
  induction files with
  | nil => intro b fs _ _ _; rfl
  | cons f rest ih =>
      intro b fs hb hfr hdp
      simp only [check_files,
        check_file_of_fresh env now b fs (env.abspath (P ++ '/' :: f)) σ hb
          (hfr f (by simp)) (hdp f (by simp)),
        ih b fs hb (fun g hg => hfr g (by simp [hg])) (fun g hg => hdp g (by simp [hg]))]
      rfl

theorem check_paths_of_fresh (env : Env) (now : Nat) (flags : List (List Char)) :
    ∀ (ps : List SourcePath) (b : Builder) (fs : FS),
      b.error = false →
      (∀ p ∈ ps, ∀ f ∈ p.files, FreshFact b.languages b.object_path b.database.data fs
          (env.abspath (p.path ++ '/' :: f)) (p.flags ++ flags)) →
      (∀ p ∈ ps, ∀ f ∈ p.files, ∀ data,
          query_source b.database.data (env.abspath (p.path ++ '/' :: f)) = some data →
          ∀ dep ∈ data.dependencies, ∃ u, fs.mtime dep = some u ∧ u ≤ data.last_write_time) →
      check_paths env now b fs flags ps =
        .ok ([], ps.map (fun p => { p with flags := p.flags ++ flags }), b, fs) := by
  intro ps
  induction ps with
  | nil => intro b fs _ _ _; rfl
  | cons p rest ih =>
      intro b fs hb hfr hdp
      simp only [check_paths,
        check_files_of_fresh env now p.path (p.flags ++ flags) p.files b fs hb
          (fun f hf => hfr p (by simp) f hf) (fun f hf => hdp p (by simp) f hf),
        ih b fs hb (fun q hq f hf => hfr q (by simp [hq]) f hf)
          (fun q hq f hf => hdp q (by simp [hq]) f hf)]
      simp

/-- A no-flags `build()` over a state whose every registered file carries a
freshness certificate (with healthy recorded dependencies) and whose
database is already saved compiles nothing and is a perfect no-op. -/
theorem build_of_all_fresh (env : Env) (now : Nat) (b : Builder) (fs : FS)
    (hb : b.error = false)
    (hsave : b.database.store = some b.database.data)
    (hcores : ¬ b.cores ≤ 0)
    (hfresh : ∀ p ∈ b.source_paths, ∀ f ∈ p.files,
        FreshFact b.languages b.object_path b.database.data fs
          (env.abspath (p.path ++ '/' :: f)) (p.flags ++ []))
    (hdeps : ∀ p ∈ b.source_paths, ∀ f ∈ p.files, ∀ data,
        query_source b.database.data (env.abspath (p.path ++ '/' :: f)) = some data →
        ∀ dep ∈ data.dependencies, ∃ u, fs.mtime dep = some u ∧ u ≤ data.last_write_time) :
    build env now b fs [] = .ok (false, b, fs, []) := by
  have hload : ({ b with database := b.database.load } : Builder) = b := by
    rw [BuildDatabase.load_of_saved b.database hsave]
  have hcp := check_paths_of_fresh env now [] b.source_paths b fs hb hfresh hdeps
  rw [map_append_nil_flags] at hcp
  have hck : check env now b fs [] = .ok ([], b, fs) := by
    simp only [check, hcp]
  have hbp : build_phase env now b fs [] = .ok (b, fs, []) := by
    simp only [build_phase, build_files]
    rw [if_neg (by simp [hb]), if_neg hcores]
  have hsv : ({ b with database := b.database.save } : Builder) = b := by
    rw [BuildDatabase.save_of_saved b.database hsave]
  simp only [build, hload, hck, hbp, hsv]
  rw [hb]

/-- C2 amended: calling `build()` twice in succession with no filesystem
changes between the calls and no extra flags compiles zero files on the
second call and leaves the persisted database (indeed the whole builder
state and filesystem) identical — PROVIDED (i) no registered file resolves
to the same absolute path twice, (ii) no registered file's path coincides
with a derived object path, and (iii) after the first call no recorded
dependency of a registered file is strictly newer than that file's recorded
mtime.  Without (iii) the claim is false (`build_twice_counterexample`): a
dependency newer than its source's recorded mtime retriggers rule 5 on the
second call, which recompiles the file and rewrites the database. -/
theorem build_twice_amended (env : Env) (now₁ now₂ : Nat) (b : Builder) (fs : FS)
    (r₁ : Bool) (b₁ : Builder) (fs₁ : FS) (c₁ : List (List Char))
    (h1 : build env now₁ b fs [] = .ok (r₁, b₁, fs₁, c₁))
    (hnodup : (full_paths env b.source_paths).Nodup)
    (hdisj : ∀ F ∈ full_paths env b.source_paths, ∀ G ∈ full_paths env b.source_paths,
        ∀ lang : Language, F ≠ b.object_path ++ '/' :: obj_filename_of G lang.object_extension)
    (hdeps : ∀ F ∈ full_paths env b.source_paths, ∀ data,
        query_source b₁.database.data F = some data →
        ∀ dep ∈ data.dependencies, ∃ u, fs₁.mtime dep = some u ∧ u ≤ data.last_write_time) :
    build env now₂ b₁ fs₁ [] = .ok (b₁.error, b₁, fs₁, []) := by
  simp only [build] at h1
  cases hck : check env now₁ { b with database := b.database.load } fs [] with
  | error e => simp only [hck] at h1; exact Except.noConfusion h1
  | ok res =>
  obtain ⟨L, bc, fsc⟩ := res
  simp only [hck] at h1
  cases hbp : build_phase env now₁ bc fsc L with
  | error e => simp only [hbp] at h1; exact Except.noConfusion h1
  | ok res2 =>
  obtain ⟨b2, fs2, comp⟩ := res2
  simp only [hbp, Except.ok.injEq, Prod.mk.injEq] at h1
  obtain ⟨hr, hb1, hfs1, hc1⟩ := h1
  -- the database of `b₁` is saved
  have hsave1 : b₁.database.store = some b₁.database.data := by
    rw [← hb1]
    rfl
  by_cases hbe : b₁.error = true
  · rw [hbe]
    exact build_of_error_saved env now₂ b₁ fs₁ hbe hsave1
  · have hbe' : b₁.error = false := by
      cases h : b₁.error
      · rfl
      · exact absurd h hbe
    have hb2e : b2.error = false := by
      rw [← hb1] at hbe'
      exact hbe'
    -- unravel the build phase of the first call
    have hphase : bc.error = false ∧ ¬ bc.cores ≤ 0 ∧
        build_files env now₁ bc fsc L = .ok (b2, fs2, comp) := by
      simp only [build_phase] at hbp
      by_cases hx : bc.error = true
      · rw [if_pos hx] at hbp
        simp only [Except.ok.injEq, Prod.mk.injEq] at hbp
        rw [← hbp.1] at hb2e
        rw [hx] at hb2e
        exact absurd hb2e (by simp)
      · have hxf : bc.error = false := by
          cases h : bc.error
          · rfl
          · exact absurd h hx
        rw [if_neg hx] at hbp
        by_cases hy : bc.cores ≤ 0
        · rw [if_pos hy] at hbp
          simp only [Except.ok.injEq, Prod.mk.injEq] at hbp
          rw [← hbp.1] at hb2e
          simp at hb2e
        · rw [if_neg hy] at hbp
          exact ⟨hxf, hy, hbp⟩
    obtain ⟨hbcE, hcores, hbfs⟩ := hphase
    -- unravel the check of the first call
    simp only [check] at hck
    cases hcp : check_paths env now₁ { b with database := b.database.load } fs []
        b.source_paths with
    | error e => simp only [hcp] at hck; exact Except.noConfusion hck
    | ok res3 =>
    obtain ⟨L', ps', bc0, fsc0⟩ := res3
    simp only [hcp, Except.ok.injEq, Prod.mk.injEq] at hck
    obtain ⟨hL', hbc, hfsc⟩ := hck
    subst hL'
    -- phase-A characterization
    obtain ⟨psh, pfs, psub, pmem, pcls⟩ :=
      check_paths_charn env now₁ [] b.source_paths
        { b with database := b.database.load } fs L' ps' bc0 fsc0 hcp hnodup
    have hbc0e : bc0.error = false := by
      have : bc.error = bc0.error := by rw [← hbc]
      rw [this] at hbcE
      exact hbcE
    have hclass := pcls hbc0e
    -- field bookkeeping for bc
    have hbcfields : bc.languages = b.languages ∧ bc.object_path = b.object_path ∧
        bc.database = b.database.load ∧ bc.cores = b.cores := by
      obtain ⟨q1, q2, q3, _, q5, _⟩ := onlyErr_fields psh
      rw [← hbc]
      exact ⟨q1, q2, q3, q5⟩
    obtain ⟨hbcL, hbcO, hbcD, hbcC⟩ := hbcfields
    -- every scheduled path is a registered path
    have hLmem : ∀ sf ∈ L', sf.path ∈ full_paths env b.source_paths := by
      intro sf hsf
      exact List.Sublist.mem (List.mem_map_of_mem SourceFile.path hsf) psub
    -- phase-B characterization
    have hndL : (L'.map SourceFile.path).Nodup := List.Nodup.sublist psub hnodup
    have hdL : ∀ sf ∈ L', ∀ sf' ∈ L', sf.path ≠
        bc.object_path ++ '/' :: obj_filename_of sf'.path sf'.lang.object_extension := by
      intro sf hsf sf' hsf'
      rw [hbcO]
      exact hdisj sf.path (hLmem sf hsf) sf'.path (hLmem sf' hsf') sf'.lang
    obtain ⟨bpres, best⟩ :=
      build_files_charn env now₁ L' bc fsc b2 fs2 comp hbfs hb2e hndL hdL
    -- field chains up to b₁
    have hb2fields := build_files_fields env now₁ L' bc fsc b2 fs2 comp hbfs
    have hlg : b₁.languages = b.languages := by
      rw [← hb1]
      show b2.languages = b.languages
      rw [hb2fields.2.1, hbcL]
    have hop : b₁.object_path = b.object_path := by
      rw [← hb1]
      show b2.object_path = b.object_path
      rw [hb2fields.2.2.1, hbcO]
    have hco : b₁.cores = b.cores := by
      rw [← hb1]
      show b2.cores = b.cores
      rw [hb2fields.2.2.2.2.1, hbcC]
    have hdat : b₁.database.data = b2.database.data := by
      rw [← hb1]
      rfl
    have hsp : b₁.source_paths = b.source_paths := by
      rw [← hb1]
      show b2.source_paths = b.source_paths
      rw [hb2fields.1]
      have : bc.source_paths = ps' := by rw [← hbc]
      rw [this, check_paths_paths_out env now₁ [] b.source_paths _ fs L' ps' bc0 fsc0 hcp,
        map_append_nil_flags]
    -- freshness certificates at the state after the first call
    have hfresh : ∀ p ∈ b₁.source_paths, ∀ f ∈ p.files,
        FreshFact b₁.languages b₁.object_path b₁.database.data fs₁
          (env.abspath (p.path ++ '/' :: f)) (p.flags ++ []) := by
      rw [hsp, hlg, hop, hdat, ← hfs1]
      intro p hp f hf
      have hFmem : env.abspath (p.path ++ '/' :: f) ∈ full_paths env b.source_paths := by
        simp only [full_paths, List.mem_flatMap]
        exact ⟨p, hp, List.mem_map_of_mem _ hf⟩
      rcases hclass p hp f hf with ⟨sf, hsf, hpath, hflags, hlang⟩ | ⟨hnot, hfr⟩
      · -- recompiled during the first call: certificate established by phase B
        have hlang' : get_language bc.languages (ext_of sf.path) = some sf.lang := by
          rw [hbcL]
          exact hlang
        have := best sf hsf hlang'
        rw [hbcL, hbcO] at this
        rw [← hpath, ← hflags]
        exact this
      · -- fresh during the first call: certificate preserved by phase B
        have hin : FreshFact bc.languages bc.object_path bc.database.data fsc
            (env.abspath (p.path ++ '/' :: f)) (p.flags ++ []) := by
          rw [hbcL, hbcO, hbcD, ← hfsc]
          exact hfr
        have := bpres (env.abspath (p.path ++ '/' :: f)) (p.flags ++ []) hin hnot
          (fun sf' hsf' => by
            rw [hbcO]
            exact hdisj _ hFmem sf'.path (hLmem sf' hsf') sf'.lang)
        rw [hbcL, hbcO] at this
        exact this
    -- dependency healthiness at the state after the first call
    have hdeps' : ∀ p ∈ b₁.source_paths, ∀ f ∈ p.files, ∀ data,
        query_source b₁.database.data (env.abspath (p.path ++ '/' :: f)) = some data →
        ∀ dep ∈ data.dependencies, ∃ u, fs₁.mtime dep = some u ∧ u ≤ data.last_write_time := by
      rw [hsp]
      intro p hp f hf data hq dep hdep
      refine hdeps (env.abspath (p.path ++ '/' :: f)) ?_ data hq dep hdep
      simp only [full_paths, List.mem_flatMap]
      exact ⟨p, hp, List.mem_map_of_mem _ hf⟩
    rw [hbcC] at hcores
    rw [hbe']
    exact build_of_all_fresh env now₂ b₁ fs₁ hbe' hsave1 (by rw [hco]; exact hcores)
      hfresh hdeps'

/-- Witness filesystem for the amended C2: same project as the
counterexample but with the header OLDER than the source, so the second
call really is a no-op. -/
def c2wFS : FS :=
  ⟨fun p => if p = "/s/a.c".toList then some 5
    else if p = "/s/b.h".toList then some 3 else none,
   fun p => if p = "/s/a.c".toList then [['i']] else []⟩

def c2wB1 : Builder :=
  match build plainEnv 20 c2Builder c2wFS [] with
  | .ok (_, b1, _, _) => b1
  | .error _ => c2Builder

def c2wFS1 : FS :=
  match build plainEnv 20 c2Builder c2wFS [] with
  | .ok (_, _, fs1, _) => fs1
  | .error _ => c2wFS

theorem build_twice_amended_witness :
    build plainEnv 30 c2wB1 c2wFS1 [] = .ok (c2wB1.error, c2wB1, c2wFS1, []) := by
  refine build_twice_amended plainEnv 20 30 c2Builder c2wFS false c2wB1 c2wFS1
    ["/s/a.c".toList] rfl (by decide) ?_ ?_
  · intro F hF G hG lang
    have he : full_paths plainEnv c2Builder.source_paths = ["/s/a.c".toList] := rfl
    rw [he] at hF
    have hFA : F = "/s/a.c".toList := by simpa using hF
    subst hFA
    intro hc
    have h2 := congrArg (fun l : List Char => l[1]?) hc
    have hop : c2Builder.object_path = "/o".toList := rfl
    rw [hop] at h2
    rw [show ("/o".toList ++ '/' :: obj_filename_of G lang.object_extension)
        = '/' :: 'o' :: '/' :: obj_filename_of G lang.object_extension from rfl] at h2
    simp at h2
  · intro F hF data hq dep hdep
    have he : full_paths plainEnv c2Builder.source_paths = ["/s/a.c".toList] := rfl
    rw [he] at hF
    have hFA : F = "/s/a.c".toList := by simpa using hF
    subst hFA
    have hqv : query_source c2wB1.database.data "/s/a.c".toList
        = some ⟨["/s/b.h".toList], 5, []⟩ := rfl
    rw [hqv] at hq
    have hdata : (⟨["/s/b.h".toList], 5, []⟩ : SourceData) = data := Option.some.inj hq
    rw [← hdata] at hdep ⊢
    have hdep' : dep = "/s/b.h".toList := by simpa using hdep
    subst hdep'
    exact ⟨3, rfl, by decide⟩

end Pybaker
